import Mathlib

/-!
# MemoryManager (src/mem_manager.cpp)

A shallow embedding of the C++ class MemoryManager and of the opening of main.

Modelling conventions
* The two heap arrays blocks (int*) and isUsed (bool*) are lists; the length of a list is
  the number of elements the array was allocated with. The field size is kept apart from
  those lengths, as in the class.
* An array access outside the allocated length is undefined behaviour in C++; every
  operation returns an Option and none stands for such an access.
* size_t is 64 bits wide: size_t arithmetic is taken modulo 2 ^ 64.
* Storage obtained from new int[n] or new bool[n] without an initialiser holds
  indeterminate values. They are explicit parameters (rawBlocks, rawUsed : index to content).
* Text written to std::cout is returned as the list of the lines written.
* The member functions are modelled as they behave when new delivers its array; exhaustion
  of the heap is not modelled. A new int[n] whose byte count n * sizeof(int) is not a size_t
  throws std::bad_array_new_length, so no object of an execution has such a capacity: the
  predicate Live keeps the reachable states whose arrays new can deliver.
-/

set_option autoImplicit false

namespace MemManager

/-- One more than the largest value of size_t. -/
def SIZE_T_MOD : Nat := 2 ^ 64

/-- The private fields of class MemoryManager (lines 6-9). -/
structure MemoryManager where
  blocks : List Int
  size : Nat
  isUsed : List Bool
  nextFreeBlock : Nat
deriving DecidableEq

/-- What a member function call leaves behind: the returned value, the lines written to
std::cout, and the object afterwards. -/
structure Outcome (α : Type) where
  ret : α
  out : List String
  state : MemoryManager
deriving DecidableEq

/-- The assignment arr[i] = v; none when i is outside the array. -/
def store {α : Type} (arr : List α) (i : Nat) (v : α) : Option (List α) :=
  if i < arr.length then some (arr.set i v) else none

/-- The loop of lines 19-22, for i from the given index, fuel iterations:
newBlocks[i] = blocks[i]; newIsUsed[i] = isUsed[i]. -/
def copyLoop (blocks : List Int) (isUsed : List Bool) :
    Nat → Nat → List Int → List Bool → Option (List Int × List Bool)
  | 0, _, newBlocks, newIsUsed => some (newBlocks, newIsUsed)
  | fuel + 1, i, newBlocks, newIsUsed =>
    match blocks[i]?, isUsed[i]? with
    | some b, some u =>
      match store newBlocks i b, store newIsUsed i u with
      | some nb, some nu => copyLoop blocks isUsed fuel (i + 1) nb nu
      | _, _ => none
    | _, _ => none

/-- The loop of lines 24-26, for i from the given index, fuel iterations:
newIsUsed[i] = false. -/
def clearLoop : Nat → Nat → List Bool → Option (List Bool)
  | 0, _, newIsUsed => some newIsUsed
  | fuel + 1, i, newIsUsed =>
    match store newIsUsed i false with
    | some nu => clearLoop fuel (i + 1) nu
    | none => none

/-- The private member resize (lines 11-35). rawBlocks is the indeterminate content of
new int[newSize]; new bool[newSize]{} is value-initialised, all false. -/
def resize (m : MemoryManager) (newSize : Nat) (rawBlocks : Nat → Int) :
    Option (Outcome Bool) :=
  if newSize ≤ m.size then
    some ⟨false, ["New size must be larger\n"], m⟩
  else
    match copyLoop m.blocks m.isUsed m.size 0
        ((List.range newSize).map rawBlocks) (List.replicate newSize false) with
    | none => none
    | some (newBlocks, newIsUsed) =>
      match clearLoop (newSize - m.size) m.size newIsUsed with
      | none => none
      | some newIsUsed2 =>
        some ⟨true, [], ⟨newBlocks, newSize, newIsUsed2, m.nextFreeBlock⟩⟩

/-- The constructor MemoryManager(size_t numBlocks) (lines 38-43). Neither array is
initialised there: rawBlocks and rawUsed are the indeterminate contents. -/
def construct (numBlocks : Nat) (rawBlocks : Nat → Int) (rawUsed : Nat → Bool) :
    MemoryManager :=
  ⟨(List.range numBlocks).map rawBlocks, numBlocks, (List.range numBlocks).map rawUsed, 0⟩

/-- The member isBlockUsed (lines 108-110): an unchecked array read. -/
def isBlockUsed (m : MemoryManager) (index : Nat) : Option Bool :=
  m.isUsed[index]?

/-- The member getSize (lines 111-113). -/
def getSize (m : MemoryManager) : Nat := m.size

/-- The loop of lines 59-61: while (nextFreeBlock < size && isUsed[nextFreeBlock])
nextFreeBlock++. The first argument bounds the number of iterations; allocate passes
size - nextFreeBlock, which the loop cannot exceed. -/
def scanLoop (isUsed : List Bool) (size : Nat) : Nat → Nat → Option Nat
  | 0, nextFreeBlock => some nextFreeBlock
  | fuel + 1, nextFreeBlock =>
    if nextFreeBlock < size then
      match isUsed[nextFreeBlock]? with
      | none => none
      | some true => scanLoop isUsed size fuel (nextFreeBlock + 1)
      | some false => some nextFreeBlock
    else some nextFreeBlock

/-- Lines 55-63 of allocate, what follows the growth test: claim the slot under the cursor
and advance the cursor. out is what has been written to std::cout so far. -/
def allocateClaim (m : MemoryManager) (value : Int) (out : List String) :
    Option (Outcome Nat) :=
  let index := m.nextFreeBlock
  match store m.blocks index value with
  | none => none
  | some blocks =>
    match store m.isUsed index true with
    | none => none
    | some isUsed =>
      match scanLoop isUsed m.size (m.size - m.nextFreeBlock) m.nextFreeBlock with
      | none => none
      | some nextFreeBlock => some ⟨index, out, ⟨blocks, m.size, isUsed, nextFreeBlock⟩⟩

/-- The member allocate (lines 49-64). size * 2 is a size_t product. When resize refuses,
the value-initialised size_t, zero, is returned. -/
def allocate (m : MemoryManager) (value : Int) (rawBlocks : Nat → Int) :
    Option (Outcome Nat) :=
  if m.nextFreeBlock ≥ m.size then
    match resize m (m.size * 2 % SIZE_T_MOD) rawBlocks with
    | none => none
    | some r => if r.ret then allocateClaim r.state value r.out else some ⟨0, r.out, r.state⟩
  else allocateClaim m value []

/-- The member free (lines 66-80). -/
def free (m : MemoryManager) (index : Nat) : Option (Outcome Bool) :=
  if index ≥ m.size then
    some ⟨false, ["Illegal access\n"], m⟩
  else
    match isBlockUsed m index with
    | none => none
    | some false => some ⟨false, ["Block not in use\n"], m⟩
    | some true =>
      match store m.isUsed index false with
      | none => none
      | some isUsed =>
        some ⟨true, [],
          ⟨m.blocks, m.size, isUsed,
            if index < m.nextFreeBlock then index else m.nextFreeBlock⟩⟩

/-- The member write (lines 82-93). -/
def write (m : MemoryManager) (index : Nat) (value : Int) : Option (Outcome Bool) :=
  if index ≥ m.size then
    some ⟨false, ["Illegal access\n"], m⟩
  else
    match isBlockUsed m index with
    | none => none
    | some false => some ⟨false, ["Block not in use\n"], m⟩
    | some true =>
      match store m.blocks index value with
      | none => none
      | some blocks => some ⟨true, [], ⟨blocks, m.size, m.isUsed, m.nextFreeBlock⟩⟩

/-- The member read (lines 95-106). value is the content of the reference argument before
the call; the returned pair is the bool result and the content of the reference after. -/
def read (m : MemoryManager) (index : Nat) (value : Int) : Option (Outcome (Bool × Int)) :=
  if index ≥ m.size then
    some ⟨(false, value), ["Illegal access\n"], m⟩
  else
    match isBlockUsed m index with
    | none => none
    | some false => some ⟨(false, value), ["Block not in use\n"], m⟩
    | some true =>
      match m.blocks[index]? with
      | none => none
      | some b => some ⟨(true, b), [], m⟩

/-- The loop of getNumFreeBlocks (lines 117-119), for i from the given index, fuel
iterations; count is a size_t. -/
def countLoop (isUsed : List Bool) : Nat → Nat → Nat → Option Nat
  | 0, _, count => some count
  | fuel + 1, i, count =>
    match isUsed[i]? with
    | none => none
    | some u => countLoop isUsed fuel (i + 1) (if !u then (count + 1) % SIZE_T_MOD else count)

/-- The member getNumFreeBlocks (lines 115-121). -/
def getNumFreeBlocks (m : MemoryManager) : Option Nat :=
  countLoop m.isUsed m.size 0 0

/-- The member requestResize (lines 123-125). -/
def requestResize (m : MemoryManager) (newSize : Nat) (rawBlocks : Nat → Int) :
    Option (Outcome Bool) :=
  resize m newSize rawBlocks

/-- The representation of a live object: both arrays were allocated with size elements. -/
def WF (m : MemoryManager) : Prop :=
  m.blocks.length = m.size ∧ m.isUsed.length = m.size

instance (m : MemoryManager) : Decidable (WF m) := by
  unfold WF; infer_instance

/-- The states the class can be in: the object as built by the constructor when the fresh
flag array happens to hold false throughout, and whatever the public member functions make
of a state already reached. Arguments of type size_t are below 2 ^ 64. -/
inductive Reachable : MemoryManager → Prop
  | init (numBlocks : Nat) (rawBlocks : Nat → Int) :
      numBlocks < SIZE_T_MOD → Reachable (construct numBlocks rawBlocks (fun _ => false))
  | allocateStep (m : MemoryManager) (value : Int) (rawBlocks : Nat → Int)
      (r : Outcome Nat) :
      Reachable m → allocate m value rawBlocks = some r → Reachable r.state
  | freeStep (m : MemoryManager) (index : Nat) (r : Outcome Bool) :
      Reachable m → free m index = some r → Reachable r.state
  | writeStep (m : MemoryManager) (index : Nat) (value : Int) (r : Outcome Bool) :
      Reachable m → write m index value = some r → Reachable r.state
  | readStep (m : MemoryManager) (index : Nat) (value : Int) (r : Outcome (Bool × Int)) :
      Reachable m → read m index value = some r → Reachable r.state
  | resizeStep (m : MemoryManager) (newSize : Nat) (rawBlocks : Nat → Int)
      (r : Outcome Bool) :
      Reachable m → newSize < SIZE_T_MOD → requestResize m newSize rawBlocks = some r →
      Reachable r.state

/-- The local variables of main that Tests 1 to 4 use: the object mm, the indices idx1 and
idx2, and the int value. -/
structure MainVars where
  mm : MemoryManager
  idx1 : Nat
  idx2 : Nat
  value : Int
deriving DecidableEq

/-- The function main, Test 1 (lines 131-138). rawBlocks and rawUsed are the indeterminate
contents of fresh storage and value0 that of the local int value. -/
def mainTest1 (rawBlocks : Nat → Int) (rawUsed : Nat → Bool) (value0 : Int) :
    Option MainVars :=
  (allocate (construct 3 rawBlocks rawUsed) 42 rawBlocks).bind fun a1 =>
  (allocate a1.state 73 rawBlocks).bind fun a2 =>
  (read a2.state a1.ret value0).bind fun r1 =>
  (read r1.state a2.ret r1.ret.2).bind fun r2 =>
  some ⟨r2.state, a1.ret, a2.ret, r2.ret.2⟩

/-- The function main, Test 2 (lines 141-143). -/
def mainTest2 (s : MainVars) : Option MainVars :=
  (write s.mm s.idx1 100).bind fun w1 =>
  (read w1.state s.idx1 s.value).bind fun r3 =>
  some ⟨r3.state, s.idx1, s.idx2, r3.ret.2⟩

/-- The function main, Test 3 (lines 146-151); idx3 is local to this test. -/
def mainTest3 (rawBlocks : Nat → Int) (s : MainVars) : Option MainVars :=
  (getNumFreeBlocks s.mm).bind fun _ =>
  (free s.mm s.idx1).bind fun f1 =>
  (getNumFreeBlocks f1.state).bind fun _ =>
  (allocate f1.state 999 rawBlocks).bind fun a3 =>
  (read a3.state a3.ret s.value).bind fun r4 =>
  some ⟨r4.state, s.idx1, s.idx2, r4.ret.2⟩

/-- The function main, Test 4 (lines 154-161). The result is what the calls of lines 155
and 161 produce, read(idx1, value) and free(idx1), both commented Should fail in the
source. -/
def mainTest4 (s : MainVars) : Option (Outcome (Bool × Int) × Outcome Bool) :=
  (read s.mm s.idx1 s.value).bind fun r5 =>
  (write r5.state 99 42).bind fun w2 =>
  (free w2.state 99).bind fun f2 =>
  (free f2.state s.idx1).bind fun f3 =>
  some (r5, f3)

/-- The function main from line 131 to line 161, Tests 1 to 4 in sequence. -/
def mainTests1to4 (rawBlocks : Nat → Int) (rawUsed : Nat → Bool) (value0 : Int) :
    Option (Outcome (Bool × Int) × Outcome Bool) :=
  (mainTest1 rawBlocks rawUsed value0).bind fun s1 =>
  (mainTest2 s1).bind fun s2 =>
  (mainTest3 rawBlocks s2).bind fun s3 =>
  mainTest4 s3

/-- Successive calls of allocate, one per value of the list, as the loops of Tests 5 and 7
make them (lines 166-169 and 183-186). The result is the list of the returned indices, in the
order of the calls, and the object afterwards. -/
def allocateAll (rawBlocks : Nat → Int) : List Int → MemoryManager →
    Option (List Nat × MemoryManager)
  | [], m => some ([], m)
  | value :: rest, m =>
    match allocate m value rawBlocks with
    | none => none
    | some r =>
      match allocateAll rawBlocks rest r.state with
      | none => none
      | some (indices, m2) => some (r.ret :: indices, m2)

/-- The number of free slots, read off the flag array. -/
def freeCount (m : MemoryManager) : Nat := m.isUsed.count false

/-- The invariant of the reachable states: the representation is well formed, the capacity
is a size_t, the cursor is at most the capacity, every slot below the cursor is in use, and
the slot under the cursor, when there is one, is free. -/
structure Inv (m : MemoryManager) : Prop where
  wf : WF m
  bound : m.size < SIZE_T_MOD
  cursor_le : m.nextFreeBlock ≤ m.size
  below_used : ∀ j, j < m.nextFreeBlock → m.isUsed[j]? = some true
  cursor_free : m.nextFreeBlock < m.size → m.isUsed[m.nextFreeBlock]? = some false

/-- One call of a public member function, whatever its arguments and its result. -/
inductive Step : MemoryManager → MemoryManager → Prop
  | allocateStep (m : MemoryManager) (value : Int) (rawBlocks : Nat → Int)
      (r : Outcome Nat) : allocate m value rawBlocks = some r → Step m r.state
  | freeStep (m : MemoryManager) (index : Nat) (r : Outcome Bool) :
      free m index = some r → Step m r.state
  | writeStep (m : MemoryManager) (index : Nat) (value : Int) (r : Outcome Bool) :
      write m index value = some r → Step m r.state
  | readStep (m : MemoryManager) (index : Nat) (value : Int) (r : Outcome (Bool × Int)) :
      read m index value = some r → Step m r.state
  | resizeStep (m : MemoryManager) (newSize : Nat) (rawBlocks : Nat → Int)
      (r : Outcome Bool) : requestResize m newSize rawBlocks = some r → Step m r.state

/-- What the caller sees of a call: the returned value and the lines written, without the
object. -/
def Outcome.observed {α : Type} (r : Outcome α) : α × List String := (r.ret, r.out)

/-- The size of an int in bytes, 4 on the usual platforms. The proofs use only that it is at
least 2. -/
def SIZEOF_INT : Nat := 4

/-- What lets new int[n] deliver an array: the byte count n * sizeof(int) is a size_t.
Otherwise the new-expression throws std::bad_array_new_length and the constructor or
resize that evaluates it leaves no object. -/
def newIntFits (n : Nat) : Prop := n * SIZEOF_INT < SIZE_T_MOD

instance (n : Nat) : Decidable (newIntFits n) := by
  unfold newIntFits; infer_instance

/-- The states of an execution that starts with all flags false: those of Reachable in
which every array was delivered by new. The capacity changes only where new int[size] is
evaluated (lines 16 and 39), so a call of the constructor, of allocate or of resize counts
only when the capacity it leaves fits. -/
inductive Live : MemoryManager → Prop
  | init (numBlocks : Nat) (rawBlocks : Nat → Int) :
      newIntFits numBlocks → Live (construct numBlocks rawBlocks (fun _ => false))
  | allocateStep (m : MemoryManager) (value : Int) (rawBlocks : Nat → Int)
      (r : Outcome Nat) :
      Live m → allocate m value rawBlocks = some r → newIntFits r.state.size → Live r.state
  | freeStep (m : MemoryManager) (index : Nat) (r : Outcome Bool) :
      Live m → free m index = some r → Live r.state
  | writeStep (m : MemoryManager) (index : Nat) (value : Int) (r : Outcome Bool) :
      Live m → write m index value = some r → Live r.state
  | readStep (m : MemoryManager) (index : Nat) (value : Int) (r : Outcome (Bool × Int)) :
      Live m → read m index value = some r → Live r.state
  | resizeStep (m : MemoryManager) (newSize : Nat) (rawBlocks : Nat → Int)
      (r : Outcome Bool) :
      Live m → newSize < SIZE_T_MOD → requestResize m newSize rawBlocks = some r →
      newIntFits r.state.size → Live r.state

/-- The states reached from the constructor whatever the fresh storage holds, flags
included, by calls of the public member functions with whatever arguments and results. -/
inductive ReachableRaw : MemoryManager → Prop
  | init (numBlocks : Nat) (rawBlocks : Nat → Int) (rawUsed : Nat → Bool) :
      ReachableRaw (construct numBlocks rawBlocks rawUsed)
  | allocateStep (m : MemoryManager) (value : Int) (rawBlocks : Nat → Int)
      (r : Outcome Nat) :
      ReachableRaw m → allocate m value rawBlocks = some r → ReachableRaw r.state
  | freeStep (m : MemoryManager) (index : Nat) (r : Outcome Bool) :
      ReachableRaw m → free m index = some r → ReachableRaw r.state
  | writeStep (m : MemoryManager) (index : Nat) (value : Int) (r : Outcome Bool) :
      ReachableRaw m → write m index value = some r → ReachableRaw r.state
  | readStep (m : MemoryManager) (index : Nat) (value : Int) (r : Outcome (Bool × Int)) :
      ReachableRaw m → read m index value = some r → ReachableRaw r.state
  | resizeStep (m : MemoryManager) (newSize : Nat) (rawBlocks : Nat → Int)
      (r : Outcome Bool) :
      ReachableRaw m → requestResize m newSize rawBlocks = some r → ReachableRaw r.state

/-- The first j slots are in use, every other slot is free, and the cursor is j. -/
structure FilledTo (j : Nat) (m : MemoryManager) : Prop where
  inv : Inv m
  cursor : m.nextFreeBlock = j
  rest_free : ∀ i, j ≤ i → i < m.size → m.isUsed[i]? = some false

/-- The capacity s is the initial capacity c doubled as few times as j slots need. -/
def LeastCapacity (c j s : Nat) : Prop :=
  ∃ k, s = c * 2 ^ k ∧ (k = 0 ∨ c * 2 ^ (k - 1) < j)

/-! ## Array stores and the loops -/

theorem store_eq_some {α : Type} (arr : List α) (i : Nat) (v : α) (h : i < arr.length) :
    store arr i v = some (arr.set i v) := by
  simp [store, h]

theorem store_some_iff {α : Type} (arr arr2 : List α) (i : Nat) (v : α) :
    store arr i v = some arr2 ↔ i < arr.length ∧ arr2 = arr.set i v := by
  unfold store
  split <;> simp_all [eq_comm]

theorem copyLoop_spec (blocks : List Int) (isUsed : List Bool) :
    ∀ (fuel i : Nat) (nb : List Int) (nu : List Bool),
      i + fuel ≤ blocks.length → i + fuel ≤ isUsed.length →
      i + fuel ≤ nb.length → i + fuel ≤ nu.length →
      ∃ nb2 nu2, copyLoop blocks isUsed fuel i nb nu = some (nb2, nu2) ∧
        nb2.length = nb.length ∧ nu2.length = nu.length ∧
        (∀ j, nb2[j]? = if i ≤ j ∧ j < i + fuel then blocks[j]? else nb[j]?) ∧
        (∀ j, nu2[j]? = if i ≤ j ∧ j < i + fuel then isUsed[j]? else nu[j]?) := by
  intro fuel
  induction fuel with
  | zero =>
    intro i nb nu _ _ _ _
    refine ⟨nb, nu, rfl, rfl, rfl, ?_, ?_⟩ <;> intro j
    · have hn : ¬ (i ≤ j ∧ j < i + 0) := by omega
      rw [if_neg hn]
    · have hn : ¬ (i ≤ j ∧ j < i + 0) := by omega
      rw [if_neg hn]
  | succ fuel ih =>
    intro i nb nu h1 h2 h3 h4
    have hb : i < blocks.length := by omega
    have hu : i < isUsed.length := by omega
    have hnb : i < nb.length := by omega
    have hnu : i < nu.length := by omega
    obtain ⟨nb2, nu2, hrun, hl1, hl2, hg1, hg2⟩ :=
      ih (i + 1) (nb.set i blocks[i]) (nu.set i isUsed[i])
        (by omega) (by omega) (by simp; omega) (by simp; omega)
    refine ⟨nb2, nu2, ?_, by simpa using hl1, by simpa using hl2, ?_, ?_⟩
    · simp [copyLoop, List.getElem?_eq_getElem hb, List.getElem?_eq_getElem hu,
        store_eq_some _ _ _ hnb, store_eq_some _ _ _ hnu, hrun]
    · intro j
      rw [hg1 j, List.getElem?_set]
      by_cases hij : i = j
      · subst hij
        simp [hnb, List.getElem?_eq_getElem hb]
      · by_cases hlt : i + 1 ≤ j ∧ j < i + 1 + fuel
        · rw [if_pos hlt, if_pos (by omega)]
        · rw [if_neg hlt, if_neg hij, if_neg (by omega)]
    · intro j
      rw [hg2 j, List.getElem?_set]
      by_cases hij : i = j
      · subst hij
        simp [hnu, List.getElem?_eq_getElem hu]
      · by_cases hlt : i + 1 ≤ j ∧ j < i + 1 + fuel
        · rw [if_pos hlt, if_pos (by omega)]
        · rw [if_neg hlt, if_neg hij, if_neg (by omega)]

theorem clearLoop_spec :
    ∀ (fuel i : Nat) (nu : List Bool), i + fuel ≤ nu.length →
      ∃ nu2, clearLoop fuel i nu = some nu2 ∧ nu2.length = nu.length ∧
        (∀ j, nu2[j]? = if i ≤ j ∧ j < i + fuel then some false else nu[j]?) := by
  intro fuel
  induction fuel with
  | zero =>
    intro i nu _
    refine ⟨nu, rfl, rfl, ?_⟩
    intro j
    have hn : ¬ (i ≤ j ∧ j < i + 0) := by omega
    rw [if_neg hn]
  | succ fuel ih =>
    intro i nu h
    have hnu : i < nu.length := by omega
    obtain ⟨nu2, hrun, hl, hg⟩ := ih (i + 1) (nu.set i false) (by simp; omega)
    refine ⟨nu2, ?_, by simpa using hl, ?_⟩
    · simp [clearLoop, store_eq_some _ _ _ hnu, hrun]
    · intro j
      rw [hg j, List.getElem?_set]
      by_cases hij : i = j
      · subst hij
        simp [hnu]
      · by_cases hlt : i + 1 ≤ j ∧ j < i + 1 + fuel
        · rw [if_pos hlt, if_pos (by omega)]
        · rw [if_neg hlt, if_neg hij, if_neg (by omega)]

theorem scanLoop_spec (isUsed : List Bool) (size : Nat) (hlen : size ≤ isUsed.length) :
    ∀ (fuel nfb : Nat), ∃ r, scanLoop isUsed size fuel nfb = some r ∧ nfb ≤ r ∧
      (nfb ≤ size → r ≤ size) ∧
      (∀ j, nfb ≤ j → j < r → isUsed[j]? = some true) ∧
      (size - nfb ≤ fuel → r < size → isUsed[r]? = some false) := by
  intro fuel
  induction fuel with
  | zero =>
    intro nfb
    refine ⟨nfb, rfl, le_refl _, fun h => h, ?_, ?_⟩
    · intro j h1 h2; omega
    · intro h1 h2; omega
  | succ fuel ih =>
    intro nfb
    by_cases hlt : nfb < size
    · have hb : nfb < isUsed.length := by omega
      cases hv : isUsed[nfb] with
      | false =>
        refine ⟨nfb, ?_, le_refl _, fun h => h, ?_, ?_⟩
        · simp [scanLoop, hlt, List.getElem?_eq_getElem hb, hv]
        · intro j h1 h2; omega
        · intro _ _; simp [List.getElem?_eq_getElem hb, hv]
      | true =>
        obtain ⟨r, hrun, hle, hsz, hused, hfree⟩ := ih (nfb + 1)
        refine ⟨r, ?_, by omega, fun _ => hsz (by omega), ?_, ?_⟩
        · simp [scanLoop, hlt, List.getElem?_eq_getElem hb, hv, hrun]
        · intro j h1 h2
          by_cases hj : j = nfb
          · subst hj; simp [List.getElem?_eq_getElem hb, hv]
          · exact hused j (by omega) h2
        · intro h1 h2
          exact hfree (by omega) h2
    · refine ⟨nfb, ?_, le_refl _, fun h => h, ?_, ?_⟩
      · simp [scanLoop, hlt]
      · intro j h1 h2; omega
      · intro h1 h2; omega

/-! ## resize -/

theorem resize_fail (m : MemoryManager) (newSize : Nat) (rawBlocks : Nat → Int)
    (h : newSize ≤ m.size) :
    resize m newSize rawBlocks = some ⟨false, ["New size must be larger\n"], m⟩ := by
  simp [resize, h]

theorem resize_ok (m : MemoryManager) (newSize : Nat) (rawBlocks : Nat → Int)
    (hwf : WF m) (h : m.size < newSize) :
    ∃ nb, resize m newSize rawBlocks = some ⟨true, [],
        ⟨nb, newSize, m.isUsed ++ List.replicate (newSize - m.size) false,
          m.nextFreeBlock⟩⟩ ∧
      nb.length = newSize ∧ (∀ j, j < m.size → nb[j]? = m.blocks[j]?) := by
  obtain ⟨hb, hu⟩ := hwf
  obtain ⟨nb2, nu2, hcopy, hl1, hl2, hg1, hg2⟩ :=
    copyLoop_spec m.blocks m.isUsed m.size 0 ((List.range newSize).map rawBlocks)
      (List.replicate newSize false) (by omega) (by omega) (by simp; omega) (by simp; omega)
  have hl2b : nu2.length = newSize := by simpa using hl2
  obtain ⟨nu3, hclear, hl3, hg3⟩ :=
    clearLoop_spec (newSize - m.size) m.size nu2 (by omega)
  have hnu3 : nu3 = m.isUsed ++ List.replicate (newSize - m.size) false := by
    apply List.ext_getElem?
    intro j
    rw [hg3 j, hg2 j, List.getElem?_append, List.getElem?_replicate,
      List.getElem?_replicate]
    by_cases h1 : j < m.size
    · have e1 : ¬ (m.size ≤ j ∧ j < m.size + (newSize - m.size)) := by omega
      have e2 : 0 ≤ j ∧ j < 0 + m.size := by omega
      rw [if_neg e1, if_pos e2, if_pos (by omega)]
    · by_cases h2 : j < newSize
      · have e1 : m.size ≤ j ∧ j < m.size + (newSize - m.size) := by omega
        have e3 : ¬ j < m.isUsed.length := by omega
        have e4 : j - m.isUsed.length < newSize - m.size := by omega
        rw [if_pos e1, if_neg e3, if_pos e4]
      · have e1 : ¬ (m.size ≤ j ∧ j < m.size + (newSize - m.size)) := by omega
        have e2 : ¬ (0 ≤ j ∧ j < 0 + m.size) := by omega
        have e3 : ¬ j < m.isUsed.length := by omega
        have e4 : ¬ j - m.isUsed.length < newSize - m.size := by omega
        rw [if_neg e1, if_neg e2, if_neg h2, if_neg e3, if_neg e4]
  refine ⟨nb2, ?_, by simpa using hl1, ?_⟩
  · have hns : ¬ newSize ≤ m.size := by omega
    simp only [resize, if_neg hns, hcopy, hclear, hnu3]
  · intro j hj
    have e2 : 0 ≤ j ∧ j < 0 + m.size := by omega
    rw [hg1 j, if_pos e2]

/-! ## free, write and read, case by case -/

theorem free_outOfRange (m : MemoryManager) (i : Nat) (h : m.size ≤ i) :
    free m i = some ⟨false, ["Illegal access\n"], m⟩ := by
  simp [free, h]

theorem free_notInUse (m : MemoryManager) (i : Nat) (h : i < m.size)
    (hu : m.isUsed[i]? = some false) :
    free m i = some ⟨false, ["Block not in use\n"], m⟩ := by
  have hn : ¬ i ≥ m.size := by omega
  simp only [free, if_neg hn, isBlockUsed, hu]

theorem free_ok (m : MemoryManager) (i : Nat) (h : i < m.size)
    (hu : m.isUsed[i]? = some true) :
    free m i = some ⟨true, [],
      ⟨m.blocks, m.size, m.isUsed.set i false,
        if i < m.nextFreeBlock then i else m.nextFreeBlock⟩⟩ := by
  have hn : ¬ i ≥ m.size := by omega
  have hlen : i < m.isUsed.length := by
    by_contra hc
    rw [List.getElem?_eq_none (by omega)] at hu
    exact absurd hu (by simp)
  simp only [free, if_neg hn, isBlockUsed, hu, store_eq_some _ _ _ hlen]

theorem free_cases (m : MemoryManager) (i : Nat) (r : Outcome Bool)
    (h : free m i = some r) :
    (m.size ≤ i ∧ r = ⟨false, ["Illegal access\n"], m⟩) ∨
    (i < m.size ∧ m.isUsed[i]? = some false ∧ r = ⟨false, ["Block not in use\n"], m⟩) ∨
    (i < m.size ∧ m.isUsed[i]? = some true ∧
      r = ⟨true, [], ⟨m.blocks, m.size, m.isUsed.set i false,
        if i < m.nextFreeBlock then i else m.nextFreeBlock⟩⟩) := by
  by_cases hi : m.size ≤ i
  · rw [free_outOfRange m i hi] at h
    exact Or.inl ⟨hi, (Option.some.inj h).symm⟩
  · have hlt : i < m.size := by omega
    cases hu : m.isUsed[i]? with
    | none =>
      have hn : ¬ i ≥ m.size := by omega
      simp only [free, if_neg hn, isBlockUsed, hu] at h
      exact absurd h (by simp)
    | some b =>
      cases b with
      | false =>
        rw [free_notInUse m i hlt hu] at h
        exact Or.inr (Or.inl ⟨hlt, rfl, (Option.some.inj h).symm⟩)
      | true =>
        rw [free_ok m i hlt hu] at h
        exact Or.inr (Or.inr ⟨hlt, rfl, (Option.some.inj h).symm⟩)

theorem write_outOfRange (m : MemoryManager) (i : Nat) (v : Int) (h : m.size ≤ i) :
    write m i v = some ⟨false, ["Illegal access\n"], m⟩ := by
  simp [write, h]

theorem write_notInUse (m : MemoryManager) (i : Nat) (v : Int) (h : i < m.size)
    (hu : m.isUsed[i]? = some false) :
    write m i v = some ⟨false, ["Block not in use\n"], m⟩ := by
  have hn : ¬ i ≥ m.size := by omega
  simp only [write, if_neg hn, isBlockUsed, hu]

theorem write_ok (m : MemoryManager) (i : Nat) (v : Int) (h : i < m.size)
    (hb : i < m.blocks.length) (hu : m.isUsed[i]? = some true) :
    write m i v = some ⟨true, [], ⟨m.blocks.set i v, m.size, m.isUsed, m.nextFreeBlock⟩⟩ := by
  have hn : ¬ i ≥ m.size := by omega
  simp only [write, if_neg hn, isBlockUsed, hu, store_eq_some _ _ _ hb]

theorem write_cases (m : MemoryManager) (i : Nat) (v : Int) (r : Outcome Bool)
    (h : write m i v = some r) :
    (m.size ≤ i ∧ r = ⟨false, ["Illegal access\n"], m⟩) ∨
    (i < m.size ∧ m.isUsed[i]? = some false ∧ r = ⟨false, ["Block not in use\n"], m⟩) ∨
    (i < m.size ∧ i < m.blocks.length ∧ m.isUsed[i]? = some true ∧
      r = ⟨true, [], ⟨m.blocks.set i v, m.size, m.isUsed, m.nextFreeBlock⟩⟩) := by
  by_cases hi : m.size ≤ i
  · rw [write_outOfRange m i v hi] at h
    exact Or.inl ⟨hi, (Option.some.inj h).symm⟩
  · have hlt : i < m.size := by omega
    have hn : ¬ i ≥ m.size := by omega
    cases hu : m.isUsed[i]? with
    | none =>
      simp only [write, if_neg hn, isBlockUsed, hu] at h
      exact absurd h (by simp)
    | some b =>
      cases b with
      | false =>
        rw [write_notInUse m i v hlt hu] at h
        exact Or.inr (Or.inl ⟨hlt, rfl, (Option.some.inj h).symm⟩)
      | true =>
        by_cases hb : i < m.blocks.length
        · rw [write_ok m i v hlt hb hu] at h
          exact Or.inr (Or.inr ⟨hlt, hb, rfl, (Option.some.inj h).symm⟩)
        · have hs : store m.blocks i v = none := by simp [store, hb]
          simp only [write, if_neg hn, isBlockUsed, hu, hs] at h
          exact absurd h (by simp)

theorem read_outOfRange (m : MemoryManager) (i : Nat) (v : Int) (h : m.size ≤ i) :
    read m i v = some ⟨(false, v), ["Illegal access\n"], m⟩ := by
  simp [read, h]

theorem read_notInUse (m : MemoryManager) (i : Nat) (v : Int) (h : i < m.size)
    (hu : m.isUsed[i]? = some false) :
    read m i v = some ⟨(false, v), ["Block not in use\n"], m⟩ := by
  have hn : ¬ i ≥ m.size := by omega
  simp only [read, if_neg hn, isBlockUsed, hu]

theorem read_ok (m : MemoryManager) (i : Nat) (v b : Int) (h : i < m.size)
    (hu : m.isUsed[i]? = some true) (hb : m.blocks[i]? = some b) :
    read m i v = some ⟨(true, b), [], m⟩ := by
  have hn : ¬ i ≥ m.size := by omega
  simp only [read, if_neg hn, isBlockUsed, hu, hb]

theorem read_state (m : MemoryManager) (i : Nat) (v : Int) (r : Outcome (Bool × Int))
    (h : read m i v = some r) : r.state = m := by
  by_cases hi : m.size ≤ i
  · rw [read_outOfRange m i v hi] at h
    rw [← Option.some.inj h]
  · have hlt : i < m.size := by omega
    have hn : ¬ i ≥ m.size := by omega
    cases hu : m.isUsed[i]? with
    | none =>
      simp only [read, if_neg hn, isBlockUsed, hu] at h
      exact absurd h (by simp)
    | some b =>
      cases b with
      | false =>
        rw [read_notInUse m i v hlt hu] at h
        rw [← Option.some.inj h]
      | true =>
        cases hb : m.blocks[i]? with
        | none =>
          simp only [read, if_neg hn, isBlockUsed, hu, hb] at h
          exact absurd h (by simp)
        | some b =>
          rw [read_ok m i v b hlt hu hb] at h
          rw [← Option.some.inj h]

/-! ## allocate -/

theorem allocateClaim_ok (m : MemoryManager) (value : Int) (out : List String)
    (hwf : WF m) (hc : m.nextFreeBlock < m.size) :
    ∃ nfb, allocateClaim m value out = some ⟨m.nextFreeBlock, out,
        ⟨m.blocks.set m.nextFreeBlock value, m.size,
          m.isUsed.set m.nextFreeBlock true, nfb⟩⟩ ∧
      m.nextFreeBlock < nfb ∧ nfb ≤ m.size ∧
      (∀ j, m.nextFreeBlock ≤ j → j < nfb →
        (m.isUsed.set m.nextFreeBlock true)[j]? = some true) ∧
      (nfb < m.size → (m.isUsed.set m.nextFreeBlock true)[nfb]? = some false) := by
  obtain ⟨hb, hu⟩ := hwf
  have hcb : m.nextFreeBlock < m.blocks.length := by omega
  have hcu : m.nextFreeBlock < m.isUsed.length := by omega
  obtain ⟨r, hrun, hle, hsz, hused, hfree⟩ :=
    scanLoop_spec (m.isUsed.set m.nextFreeBlock true) m.size (by simp; omega)
      (m.size - m.nextFreeBlock) m.nextFreeBlock
  have hself : (m.isUsed.set m.nextFreeBlock true)[m.nextFreeBlock]? = some true := by
    rw [List.getElem?_set, if_pos rfl, if_pos hcu]
  have hrs : r ≤ m.size := hsz (by omega)
  have hlt : m.nextFreeBlock < r := by
    by_contra hcon
    have heq : r = m.nextFreeBlock := by omega
    have := hfree (le_refl _) (by omega)
    rw [heq, hself] at this
    exact absurd this (by simp)
  refine ⟨r, ?_, hlt, hrs, hused, hfree (le_refl _)⟩
  simp only [allocateClaim, store_eq_some _ _ _ hcb, store_eq_some _ _ _ hcu, hrun]

theorem allocate_noGrow (m : MemoryManager) (value : Int) (rawBlocks : Nat → Int)
    (hc : m.nextFreeBlock < m.size) :
    allocate m value rawBlocks = allocateClaim m value [] := by
  have hn : ¬ m.nextFreeBlock ≥ m.size := by omega
  simp only [allocate, if_neg hn]

theorem allocate_growFail (m : MemoryManager) (value : Int) (rawBlocks : Nat → Int)
    (hc : m.size ≤ m.nextFreeBlock) (h : m.size * 2 % SIZE_T_MOD ≤ m.size) :
    allocate m value rawBlocks = some ⟨0, ["New size must be larger\n"], m⟩ := by
  have hp : m.nextFreeBlock ≥ m.size := hc
  simp [allocate, if_pos hp, resize_fail m _ rawBlocks h]

theorem allocate_grow (m : MemoryManager) (value : Int) (rawBlocks : Nat → Int)
    (hwf : WF m) (hc : m.size ≤ m.nextFreeBlock) (h : m.size < m.size * 2 % SIZE_T_MOD) :
    ∃ nb, nb.length = m.size * 2 % SIZE_T_MOD ∧ (∀ j, j < m.size → nb[j]? = m.blocks[j]?) ∧
      allocate m value rawBlocks = allocateClaim
        ⟨nb, m.size * 2 % SIZE_T_MOD,
          m.isUsed ++ List.replicate (m.size * 2 % SIZE_T_MOD - m.size) false,
          m.nextFreeBlock⟩ value [] := by
  obtain ⟨nb, hres, hlen, hget⟩ := resize_ok m (m.size * 2 % SIZE_T_MOD) rawBlocks hwf h
  refine ⟨nb, hlen, hget, ?_⟩
  have hp : m.nextFreeBlock ≥ m.size := hc
  simp [allocate, if_pos hp, hres]

/-! ## The invariant -/

theorem construct_inv (numBlocks : Nat) (rawBlocks : Nat → Int)
    (h : numBlocks < SIZE_T_MOD) : Inv (construct numBlocks rawBlocks (fun _ => false)) := by
  refine ⟨⟨by simp [construct], by simp [construct]⟩, h, Nat.zero_le _, ?_, ?_⟩
  · intro j hj
    exact absurd hj (Nat.not_lt_zero _)
  · intro hlt
    have hlt2 : 0 < numBlocks := hlt
    simp [construct, List.getElem?_replicate, hlt2]

theorem allocateClaim_inv (m : MemoryManager) (value : Int) (out : List String)
    (r : Outcome Nat) (hwf : WF m) (hbd : m.size < SIZE_T_MOD)
    (hc : m.nextFreeBlock < m.size)
    (hbelow : ∀ j, j < m.nextFreeBlock → m.isUsed[j]? = some true)
    (h : allocateClaim m value out = some r) : Inv r.state := by
  obtain ⟨nfb, hrun, hlt, hle, hused, hfree⟩ := allocateClaim_ok m value out hwf hc
  rw [hrun] at h
  rw [← Option.some.inj h]
  obtain ⟨hb, hu⟩ := hwf
  refine ⟨⟨by simpa using hb, by simpa using hu⟩, hbd, hle, ?_, hfree⟩
  intro j hj
  by_cases hjc : j < m.nextFreeBlock
  · show (m.isUsed.set m.nextFreeBlock true)[j]? = some true
    rw [List.getElem?_set_ne (by omega)]
    exact hbelow j hjc
  · exact hused j (by omega) hj

theorem resize_inv (m : MemoryManager) (newSize : Nat) (rawBlocks : Nat → Int)
    (r : Outcome Bool) (hI : Inv m) (hn : newSize < SIZE_T_MOD)
    (h : resize m newSize rawBlocks = some r) : Inv r.state := by
  by_cases hle : newSize ≤ m.size
  · rw [resize_fail m newSize rawBlocks hle] at h
    rw [← Option.some.inj h]
    exact hI
  · obtain ⟨nb, hres, hlen, _⟩ := resize_ok m newSize rawBlocks hI.wf (by omega)
    rw [hres] at h
    rw [← Option.some.inj h]
    have hu := hI.wf.2
    have hcl := hI.cursor_le
    refine ⟨⟨hlen, by simp; omega⟩, hn, by show m.nextFreeBlock ≤ newSize; omega, ?_, ?_⟩
    · intro j hj
      have hj2 : j < m.nextFreeBlock := hj
      show (m.isUsed ++ List.replicate (newSize - m.size) false)[j]? = some true
      rw [List.getElem?_append_left (by omega)]
      exact hI.below_used j hj2
    · intro _
      show (m.isUsed ++ List.replicate (newSize - m.size) false)[m.nextFreeBlock]?
        = some false
      by_cases hc : m.nextFreeBlock < m.size
      · rw [List.getElem?_append_left (by omega)]
        exact hI.cursor_free hc
      · rw [List.getElem?_append_right (by omega), List.getElem?_replicate,
          if_pos (by omega)]

theorem allocate_inv (m : MemoryManager) (value : Int) (rawBlocks : Nat → Int)
    (r : Outcome Nat) (hI : Inv m) (h : allocate m value rawBlocks = some r) :
    Inv r.state := by
  by_cases hc : m.nextFreeBlock < m.size
  · rw [allocate_noGrow m value rawBlocks hc] at h
    exact allocateClaim_inv m value [] r hI.wf hI.bound hc hI.below_used h
  · by_cases hg : m.size * 2 % SIZE_T_MOD ≤ m.size
    · rw [allocate_growFail m value rawBlocks (by omega) hg] at h
      rw [← Option.some.inj h]
      exact hI
    · obtain ⟨nb, hlen, _, hrun⟩ :=
        allocate_grow m value rawBlocks hI.wf (by omega) (by omega)
      rw [hrun] at h
      have hu := hI.wf.2
      have hcl := hI.cursor_le
      have hM : m.size * 2 % SIZE_T_MOD < SIZE_T_MOD :=
        Nat.mod_lt _ (by unfold SIZE_T_MOD; exact Nat.two_pow_pos 64)
      refine allocateClaim_inv _ value [] r ⟨hlen, ?_⟩ hM ?_ ?_ h
      · show (m.isUsed ++ List.replicate (m.size * 2 % SIZE_T_MOD - m.size) false).length
          = m.size * 2 % SIZE_T_MOD
        simp
        omega
      · show m.nextFreeBlock < m.size * 2 % SIZE_T_MOD
        omega
      · intro j hj
        have hj2 : j < m.nextFreeBlock := hj
        show (m.isUsed ++ List.replicate (m.size * 2 % SIZE_T_MOD - m.size) false)[j]?
          = some true
        rw [List.getElem?_append_left (by omega)]
        exact hI.below_used j hj2

theorem free_inv (m : MemoryManager) (i : Nat) (r : Outcome Bool) (hI : Inv m)
    (h : free m i = some r) : Inv r.state := by
  rcases free_cases m i r h with ⟨_, hr⟩ | ⟨_, _, hr⟩ | ⟨hi, hu, hr⟩
  · rw [hr]; exact hI
  · rw [hr]; exact hI
  · rw [hr]
    have hb := hI.wf.1
    have hl := hI.wf.2
    have hcl := hI.cursor_le
    refine ⟨⟨hb, by simpa using hl⟩, hI.bound, ?_, ?_, ?_⟩
    · show (if i < m.nextFreeBlock then i else m.nextFreeBlock) ≤ m.size
      split <;> omega
    · intro j hj
      have hj2 : j < (if i < m.nextFreeBlock then i else m.nextFreeBlock) := hj
      have hji : j < m.nextFreeBlock ∧ j ≠ i := by
        split at hj2 <;> omega
      show (m.isUsed.set i false)[j]? = some true
      rw [List.getElem?_set_ne (by omega)]
      exact hI.below_used j hji.1
    · intro hlt
      have hlt2 : (if i < m.nextFreeBlock then i else m.nextFreeBlock) < m.size := hlt
      show (m.isUsed.set i false)[if i < m.nextFreeBlock then i else m.nextFreeBlock]?
        = some false
      by_cases hic : i < m.nextFreeBlock
      · rw [if_pos hic, List.getElem?_set, if_pos rfl, if_pos (by omega)]
      · rw [if_neg hic] at hlt2 ⊢
        have hcf := hI.cursor_free hlt2
        have hne : i ≠ m.nextFreeBlock := by
          intro heq
          rw [heq, hcf] at hu
          exact absurd hu (by simp)
        rw [List.getElem?_set_ne hne]
        exact hcf

theorem write_inv (m : MemoryManager) (i : Nat) (v : Int) (r : Outcome Bool) (hI : Inv m)
    (h : write m i v = some r) : Inv r.state := by
  rcases write_cases m i v r h with ⟨_, hr⟩ | ⟨_, _, hr⟩ | ⟨_, _, _, hr⟩
  · rw [hr]; exact hI
  · rw [hr]; exact hI
  · rw [hr]
    exact ⟨⟨by simpa using hI.wf.1, hI.wf.2⟩, hI.bound, hI.cursor_le, hI.below_used,
      hI.cursor_free⟩

theorem reachable_inv (m : MemoryManager) (h : Reachable m) : Inv m := by
  induction h with
  | init numBlocks rawBlocks hn => exact construct_inv numBlocks rawBlocks hn
  | allocateStep m value rawBlocks r _ hrun ih => exact allocate_inv m value rawBlocks r ih hrun
  | freeStep m index r _ hrun ih => exact free_inv m index r ih hrun
  | writeStep m index value r _ hrun ih => exact write_inv m index value r ih hrun
  | readStep m index value r _ hrun ih =>
    rw [read_state m index value r hrun]
    exact ih
  | resizeStep m newSize rawBlocks r _ hn hrun ih =>
    exact resize_inv m newSize rawBlocks r ih hn hrun

/-- What allocate does in a state that satisfies the invariant, when the slot under the
cursor exists or the doubled capacity is larger than the capacity. -/
theorem allocate_spec (m : MemoryManager) (value : Int) (rawBlocks : Nat → Int)
    (hI : Inv m)
    (hg : m.nextFreeBlock < m.size ∨ m.size < m.size * 2 % SIZE_T_MOD) :
    ∃ (nb : List Int) (nfb newSize : Nat),
      allocate m value rawBlocks = some ⟨m.nextFreeBlock, [],
        ⟨nb.set m.nextFreeBlock value, newSize,
          (m.isUsed ++ List.replicate (newSize - m.size) false).set m.nextFreeBlock true,
          nfb⟩⟩ ∧
      ((m.nextFreeBlock < m.size ∧ newSize = m.size) ∨
        (m.nextFreeBlock = m.size ∧ newSize = m.size * 2 % SIZE_T_MOD ∧
          m.size < newSize)) ∧
      nb.length = newSize ∧ (∀ j, j < m.size → nb[j]? = m.blocks[j]?) ∧
      m.nextFreeBlock < newSize ∧ m.nextFreeBlock < nfb ∧
      (m.isUsed ++ List.replicate (newSize - m.size) false)[m.nextFreeBlock]?
        = some false := by
  have hb := hI.wf.1
  have hu := hI.wf.2
  have hcl := hI.cursor_le
  by_cases hc : m.nextFreeBlock < m.size
  · obtain ⟨nfb, hrun, hlt, _, _, _⟩ := allocateClaim_ok m value [] hI.wf hc
    refine ⟨m.blocks, nfb, m.size, ?_, Or.inl ⟨hc, rfl⟩, hb, fun _ _ => rfl, hc, hlt, ?_⟩
    · rw [allocate_noGrow m value rawBlocks hc, hrun]
      simp
    · rw [List.getElem?_append_left (by omega)]
      exact hI.cursor_free hc
  · have hgrow : m.size < m.size * 2 % SIZE_T_MOD := by
      rcases hg with h | h
      · exact absurd h hc
      · exact h
    have hceq : m.nextFreeBlock = m.size := by omega
    obtain ⟨nb, hlen, hget, hrun⟩ :=
      allocate_grow m value rawBlocks hI.wf (by omega) hgrow
    have hwf2 : WF ⟨nb, m.size * 2 % SIZE_T_MOD,
        m.isUsed ++ List.replicate (m.size * 2 % SIZE_T_MOD - m.size) false,
        m.nextFreeBlock⟩ := by
      refine ⟨hlen, ?_⟩
      show (m.isUsed ++ List.replicate (m.size * 2 % SIZE_T_MOD - m.size) false).length
        = m.size * 2 % SIZE_T_MOD
      simp
      omega
    obtain ⟨nfb, hrun2, hlt, _, _, _⟩ :=
      allocateClaim_ok _ value [] hwf2 (show m.nextFreeBlock < m.size * 2 % SIZE_T_MOD by omega)
    refine ⟨nb, nfb, m.size * 2 % SIZE_T_MOD, ?_, Or.inr ⟨hceq, rfl, hgrow⟩, hlen, hget,
      by omega, hlt, ?_⟩
    · rw [hrun, hrun2]
    · rw [List.getElem?_append_right (by omega), List.getElem?_replicate, if_pos (by omega)]

/-- When the capacity is at least 1 and its double fits in a size_t, the doubled capacity
is larger than the capacity. -/
theorem double_gt (n : Nat) (h1 : 1 ≤ n) (h2 : n * 2 < SIZE_T_MOD) :
    n < n * 2 % SIZE_T_MOD := by
  rw [Nat.mod_eq_of_lt h2]
  omega

/-! ## Properties of the specification -/

/-- C1 (round trip, P1): in every state reachable from the constructor with all flags
initially false, with capacity at least 1 and capacity * 2 below 2 ^ 64, allocate(v) returns
an index i below the new size, and read(i) then succeeds and yields v. -/
theorem C1_round_trip (m : MemoryManager) (v : Int) (rawBlocks : Nat → Int) (value0 : Int)
    (hr : Reachable m) (h1 : 1 ≤ m.size) (h2 : m.size * 2 < SIZE_T_MOD) :
    ∃ r, allocate m v rawBlocks = some r ∧ r.ret < getSize r.state ∧
      read r.state r.ret value0 = some ⟨(true, v), [], r.state⟩ := by
  have hI := reachable_inv m hr
  obtain ⟨nb, nfb, newSize, hrun, _, hlen, _, hcn, _, _⟩ :=
    allocate_spec m v rawBlocks hI (Or.inr (double_gt m.size h1 h2))
  refine ⟨_, hrun, hcn, ?_⟩
  have hu := hI.wf.2
  apply read_ok _ _ _ _ hcn
  · show ((m.isUsed ++ List.replicate (newSize - m.size) false).set m.nextFreeBlock
      true)[m.nextFreeBlock]? = some true
    rw [List.getElem?_set, if_pos rfl, if_pos (by simp; omega)]
  · show (nb.set m.nextFreeBlock v)[m.nextFreeBlock]? = some v
    rw [List.getElem?_set, if_pos rfl, if_pos (by omega)]

theorem C1_round_trip_witness :
    ∃ r, allocate (construct 3 (fun _ => 0) (fun _ => false)) 42 (fun _ => 0) = some r ∧
      r.ret < getSize r.state ∧
      read r.state r.ret 7 = some ⟨(true, 42), [], r.state⟩ :=
  C1_round_trip (construct 3 (fun _ => 0) (fun _ => false)) 42 (fun _ => 0) 7
    (Reachable.init 3 (fun _ => 0) (by decide)) (by decide) (by decide)

/-- C2 (Test 4, stale index): with all flags initially false, the calls of lines 155 and
161 of main, read(idx1, value) and free(idx1), both succeed: allocate(999) of line 149 has
taken idx1 again, so the read yields 999 and the free releases the slot a second time. The
source comments both calls with Should fail. -/
theorem C2_stale_index_accepted (rawBlocks : Nat → Int) (value0 : Int) :
    mainTests1to4 rawBlocks (fun _ => false) value0 =
      some (⟨(true, 999), [], ⟨[999, 73, rawBlocks 2], 3, [true, true, false], 2⟩⟩,
        ⟨true, [], ⟨[999, 73, rawBlocks 2], 3, [false, true, false], 0⟩⟩) := by
  rfl

/-- C3 (zero capacity): on an object built with capacity 0 the first allocate asks resize
for 0 * 2 = 0 slots, which resize refuses; allocate returns 0, the capacity is still 0 and
read(0) is an illegal access. -/
theorem C3_zero_capacity_stuck (rawBlocks rawBlocks2 : Nat → Int) (rawUsed : Nat → Bool)
    (v value0 : Int) :
    allocate (construct 0 rawBlocks rawUsed) v rawBlocks2 =
      some ⟨0, ["New size must be larger\n"], construct 0 rawBlocks rawUsed⟩ ∧
    getSize (construct 0 rawBlocks rawUsed) = 0 ∧
    read (construct 0 rawBlocks rawUsed) 0 value0 =
      some ⟨(false, value0), ["Illegal access\n"], construct 0 rawBlocks rawUsed⟩ := by
  refine ⟨rfl, rfl, rfl⟩

/-- C4 (initial state): the constructor sets size and nextFreeBlock but leaves the flag
array as new bool[numBlocks] delivers it. When that storage holds true, the object built
with one block has no free block, and read, write and free of index 0 succeed. -/
theorem C4_constructor_leaves_flags (v value0 : Int) :
    getSize (construct 1 (fun _ => 5) (fun _ => true)) = 1 ∧
    (construct 1 (fun _ => 5) (fun _ => true)).nextFreeBlock = 0 ∧
    getNumFreeBlocks (construct 1 (fun _ => 5) (fun _ => true)) = some 0 ∧
    read (construct 1 (fun _ => 5) (fun _ => true)) 0 value0 =
      some ⟨(true, 5), [], construct 1 (fun _ => 5) (fun _ => true)⟩ ∧
    write (construct 1 (fun _ => 5) (fun _ => true)) 0 v =
      some ⟨true, [], ⟨[v], 1, [true], 0⟩⟩ ∧
    free (construct 1 (fun _ => 5) (fun _ => true)) 0 =
      some ⟨true, [], ⟨[5], 1, [false], 0⟩⟩ := by
  refine ⟨rfl, rfl, rfl, rfl, rfl, rfl⟩

/-- C5 (reuse policy, P6): in a well-formed state, when free(k) succeeds for an index k
below the cursor, the next allocate(v) returns k, leaves the capacity as it was, and
read(k) then yields v. -/
theorem C5_reuse_policy (m m1 : MemoryManager) (k : Nat) (v value0 : Int)
    (rawBlocks : Nat → Int) (out : List String)
    (hwf : WF m) (hk : k < m.nextFreeBlock) (hf : free m k = some ⟨true, out, m1⟩) :
    ∃ r, allocate m1 v rawBlocks = some r ∧ r.ret = k ∧ getSize r.state = getSize m ∧
      read r.state k value0 = some ⟨(true, v), [], r.state⟩ := by
  rcases free_cases m k _ hf with ⟨_, hr⟩ | ⟨_, _, hr⟩ | ⟨hi, hu, hr⟩
  · exact absurd (congrArg Outcome.ret hr) (by simp)
  · exact absurd (congrArg Outcome.ret hr) (by simp)
  · have hm1 : m1 = ⟨m.blocks, m.size, m.isUsed.set k false, k⟩ := by
      have := congrArg Outcome.state hr
      simpa [if_pos hk] using this
    subst hm1
    obtain ⟨hb, hl⟩ := hwf
    have hwf1 : WF ⟨m.blocks, m.size, m.isUsed.set k false, k⟩ := ⟨hb, by simpa using hl⟩
    obtain ⟨nfb, hrun, _, _, _, _⟩ := allocateClaim_ok _ v [] hwf1 (show k < m.size from hi)
    refine ⟨_, (allocate_noGrow _ v rawBlocks (show k < m.size from hi)).trans hrun,
      rfl, rfl, ?_⟩
    refine read_ok _ _ _ _ ?_ ?_ ?_
    · exact hi
    · show ((m.isUsed.set k false).set k true)[k]? = some true
      rw [List.getElem?_set, if_pos rfl, if_pos (by simp; omega)]
    · show (m.blocks.set k v)[k]? = some v
      rw [List.getElem?_set, if_pos rfl, if_pos (by omega)]

theorem C5_reuse_policy_witness :
    ∃ r, allocate ⟨[100, 73, 0], 3, [false, true, false], 0⟩ 999 (fun _ => 0) = some r ∧
      r.ret = 0 ∧ getSize r.state = getSize ⟨[100, 73, 0], 3, [true, true, false], 2⟩ ∧
      read r.state 0 7 = some ⟨(true, 999), [], r.state⟩ :=
  C5_reuse_policy ⟨[100, 73, 0], 3, [true, true, false], 2⟩
    ⟨[100, 73, 0], 3, [false, true, false], 0⟩ 0 999 7 (fun _ => 0) []
    (by decide) (by decide) (by decide)

/-- C6 (no ghost reads, P3): when free(i) succeeds, read(i) right after fails with the
message Block not in use, and the reference argument keeps its content. -/
theorem C6_no_ghost_read (m m1 : MemoryManager) (i : Nat) (value0 : Int)
    (out : List String) (hf : free m i = some ⟨true, out, m1⟩) :
    read m1 i value0 = some ⟨(false, value0), ["Block not in use\n"], m1⟩ := by
  rcases free_cases m i _ hf with ⟨_, hr⟩ | ⟨_, _, hr⟩ | ⟨hi, hu, hr⟩
  · exact absurd (congrArg Outcome.ret hr) (by simp)
  · exact absurd (congrArg Outcome.ret hr) (by simp)
  · have hm1 := congrArg Outcome.state hr
    simp only at hm1
    subst hm1
    have hlen : i < m.isUsed.length := by
      by_contra hc
      rw [List.getElem?_eq_none (by omega)] at hu
      exact absurd hu (by simp)
    refine read_notInUse _ _ _ ?_ ?_
    · exact hi
    · show (m.isUsed.set i false)[i]? = some false
      rw [List.getElem?_set, if_pos rfl, if_pos hlen]

theorem C6_no_ghost_read_witness :
    read ⟨[100, 73, 0], 3, [false, true, false], 0⟩ 0 7 =
      some ⟨(false, 7), ["Block not in use\n"], ⟨[100, 73, 0], 3, [false, true, false], 0⟩⟩ :=
  C6_no_ghost_read ⟨[100, 73, 0], 3, [true, true, false], 2⟩
    ⟨[100, 73, 0], 3, [false, true, false], 0⟩ 0 7 [] (by decide)

/-- Two objects that agree on the range test, the flag and the value of slot i give read(i)
the same result. -/
theorem read_observed_congr (m m2 : MemoryManager) (i : Nat) (value0 : Int)
    (h1 : i < m.size) (h2 : i < m2.size) (hu : m2.isUsed[i]? = m.isUsed[i]?)
    (hb : m2.blocks[i]? = m.blocks[i]?) :
    (read m2 i value0).map Outcome.observed = (read m i value0).map Outcome.observed := by
  have hn1 : ¬ i ≥ m.size := by omega
  have hn2 : ¬ i ≥ m2.size := by omega
  simp only [read, if_neg hn1, if_neg hn2, isBlockUsed, hu, hb]
  cases m.isUsed[i]? with
  | none => rfl
  | some b =>
    cases b with
    | false => rfl
    | true =>
      cases m.blocks[i]? with
      | none => rfl
      | some x => rfl

/-- C7 (growth preserves data, P5, explicit resize): in a well-formed state resize(newSize)
with newSize above the capacity succeeds; every index below the old capacity keeps its flag
and gives read the same result as before, every index from the old capacity up to newSize is
free, and the cursor is unchanged. -/
theorem C7_resize_preserves (m : MemoryManager) (newSize : Nat) (rawBlocks : Nat → Int)
    (hwf : WF m) (h : m.size < newSize) :
    ∃ m2, resize m newSize rawBlocks = some ⟨true, [], m2⟩ ∧
      (∀ i, i < m.size → m2.isUsed[i]? = m.isUsed[i]? ∧
        ∀ value0, (read m2 i value0).map Outcome.observed =
          (read m i value0).map Outcome.observed) ∧
      (∀ i, m.size ≤ i → i < newSize → m2.isUsed[i]? = some false) ∧
      m2.nextFreeBlock = m.nextFreeBlock := by
  obtain ⟨nb, hres, hlen, hget⟩ := resize_ok m newSize rawBlocks hwf h
  have hl := hwf.2
  refine ⟨_, hres, ?_, ?_, rfl⟩
  · intro i hi
    have hflag : (m.isUsed ++ List.replicate (newSize - m.size) false)[i]? = m.isUsed[i]? :=
      List.getElem?_append_left (by omega)
    refine ⟨hflag, fun value0 => ?_⟩
    exact read_observed_congr m _ i value0 hi (show i < newSize by omega) hflag (hget i hi)
  · intro i h1 h2
    show (m.isUsed ++ List.replicate (newSize - m.size) false)[i]? = some false
    rw [List.getElem?_append_right (by omega), List.getElem?_replicate, if_pos (by omega)]

theorem C7_resize_preserves_witness :
    ∃ m2, resize ⟨[100, 73], 2, [true, false], 1⟩ 4 (fun _ => 0) = some ⟨true, [], m2⟩ ∧
      (∀ i, i < 2 → m2.isUsed[i]? = [true, false][i]? ∧
        ∀ value0, (read m2 i value0).map Outcome.observed =
          (read ⟨[100, 73], 2, [true, false], 1⟩ i value0).map Outcome.observed) ∧
      (∀ i, 2 ≤ i → i < 4 → m2.isUsed[i]? = some false) ∧
      m2.nextFreeBlock = 1 :=
  C7_resize_preserves ⟨[100, 73], 2, [true, false], 1⟩ 4 (fun _ => 0) (by decide) (by decide)

/-- C8 (write overwrite, P2): in a well-formed state, for an index i in range whose slot is
in use, write(i, v) succeeds and read(i) right after succeeds and yields v. -/
theorem C8_write_then_read (m : MemoryManager) (i : Nat) (v value0 : Int)
    (hwf : WF m) (hi : i < m.size) (hu : m.isUsed[i]? = some true) :
    ∃ m2, write m i v = some ⟨true, [], m2⟩ ∧
      read m2 i value0 = some ⟨(true, v), [], m2⟩ := by
  have hb : i < m.blocks.length := by rw [hwf.1]; exact hi
  refine ⟨_, write_ok m i v hi hb hu, ?_⟩
  refine read_ok _ _ _ _ ?_ ?_ ?_
  · exact hi
  · exact hu
  · show (m.blocks.set i v)[i]? = some v
    rw [List.getElem?_set, if_pos rfl, if_pos hb]

theorem C8_write_then_read_witness :
    ∃ m2, write ⟨[42, 73, 0], 3, [true, true, false], 2⟩ 0 100 = some ⟨true, [], m2⟩ ∧
      read m2 0 7 = some ⟨(true, 100), [], m2⟩ :=
  C8_write_then_read ⟨[42, 73, 0], 3, [true, true, false], 2⟩ 0 100 7
    (by decide) (by decide) (by decide)

/-- C9 (double free rejected, P8): free of an index in range whose slot is free fails with
the message Block not in use and returns the object unchanged; in particular a second
free(i) right after a successful free(i) fails so. -/
theorem C9_double_free_rejected (m : MemoryManager) (i : Nat) :
    (i < m.size → m.isUsed[i]? = some false →
      free m i = some ⟨false, ["Block not in use\n"], m⟩) ∧
    (∀ out m1, free m i = some ⟨true, out, m1⟩ →
      free m1 i = some ⟨false, ["Block not in use\n"], m1⟩) := by
  refine ⟨free_notInUse m i, ?_⟩
  intro out m1 hf
  rcases free_cases m i _ hf with ⟨_, hr⟩ | ⟨_, _, hr⟩ | ⟨hi, hu, hr⟩
  · exact absurd (congrArg Outcome.ret hr) (by simp)
  · exact absurd (congrArg Outcome.ret hr) (by simp)
  · have hm1 := congrArg Outcome.state hr
    simp only at hm1
    subst hm1
    have hlen : i < m.isUsed.length := by
      by_contra hc
      rw [List.getElem?_eq_none (by omega)] at hu
      exact absurd hu (by simp)
    refine free_notInUse _ _ ?_ ?_
    · exact hi
    · show (m.isUsed.set i false)[i]? = some false
      rw [List.getElem?_set, if_pos rfl, if_pos hlen]

theorem C9_double_free_rejected_witness :
    free ⟨[100, 73, 0], 3, [false, true, false], 0⟩ 0 =
        some ⟨false, ["Block not in use\n"], ⟨[100, 73, 0], 3, [false, true, false], 0⟩⟩ ∧
    free ⟨[100, 73, 0], 3, [true, false, false], 1⟩ 1 =
        some ⟨false, ["Block not in use\n"], ⟨[100, 73, 0], 3, [true, false, false], 1⟩⟩ :=
  ⟨(C9_double_free_rejected ⟨[100, 73, 0], 3, [true, true, false], 2⟩ 0).2 []
      ⟨[100, 73, 0], 3, [false, true, false], 0⟩ (by decide),
    (C9_double_free_rejected ⟨[100, 73, 0], 3, [true, false, false], 1⟩ 1).1
      (by decide) (by decide)⟩

/-- C10 (bounds checking, P7): for an index at or above the capacity, read, write and free
each fail with the message Illegal access and return the object unchanged; read leaves the
reference argument as it was. -/
theorem C10_bounds_checked (m : MemoryManager) (i : Nat) (v value0 : Int)
    (h : getSize m ≤ i) :
    read m i value0 = some ⟨(false, value0), ["Illegal access\n"], m⟩ ∧
    write m i v = some ⟨false, ["Illegal access\n"], m⟩ ∧
    free m i = some ⟨false, ["Illegal access\n"], m⟩ :=
  ⟨read_outOfRange m i value0 h, write_outOfRange m i v h, free_outOfRange m i h⟩

theorem C10_bounds_checked_witness :
    read ⟨[999, 73, 0], 3, [true, true, false], 2⟩ 99 7 =
      some ⟨(false, 7), ["Illegal access\n"], ⟨[999, 73, 0], 3, [true, true, false], 2⟩⟩ ∧
    write ⟨[999, 73, 0], 3, [true, true, false], 2⟩ 99 42 =
      some ⟨false, ["Illegal access\n"], ⟨[999, 73, 0], 3, [true, true, false], 2⟩⟩ ∧
    free ⟨[999, 73, 0], 3, [true, true, false], 2⟩ 99 =
      some ⟨false, ["Illegal access\n"], ⟨[999, 73, 0], 3, [true, true, false], 2⟩⟩ :=
  C10_bounds_checked ⟨[999, 73, 0], 3, [true, true, false], 2⟩ 99 42 7 (by decide)

/-! ## Capacity -/

theorem resize_cases (m : MemoryManager) (newSize : Nat) (rawBlocks : Nat → Int)
    (r : Outcome Bool) (h : resize m newSize rawBlocks = some r) :
    (newSize ≤ m.size ∧ r = ⟨false, ["New size must be larger\n"], m⟩) ∨
    (m.size < newSize ∧ r.ret = true ∧ r.out = [] ∧ r.state.size = newSize ∧
      r.state.nextFreeBlock = m.nextFreeBlock) := by
  by_cases hle : newSize ≤ m.size
  · rw [resize_fail m newSize rawBlocks hle] at h
    exact Or.inl ⟨hle, (Option.some.inj h).symm⟩
  · right
    simp only [resize, if_neg hle] at h
    split at h
    · exact absurd h (by simp)
    · split at h
      · exact absurd h (by simp)
      · rw [← Option.some.inj h]
        exact ⟨by omega, rfl, rfl, rfl, rfl⟩

theorem allocateClaim_size (m : MemoryManager) (value : Int) (out : List String)
    (r : Outcome Nat) (h : allocateClaim m value out = some r) : r.state.size = m.size := by
  simp only [allocateClaim] at h
  split at h
  · exact absurd h (by simp)
  · split at h
    · exact absurd h (by simp)
    · split at h
      · exact absurd h (by simp)
      · rw [← Option.some.inj h]

theorem allocate_size_le (m : MemoryManager) (value : Int) (rawBlocks : Nat → Int)
    (r : Outcome Nat) (h : allocate m value rawBlocks = some r) :
    m.size ≤ r.state.size := by
  by_cases hc : m.nextFreeBlock < m.size
  · rw [allocate_noGrow m value rawBlocks hc] at h
    rw [allocateClaim_size m value [] r h]
  · have hp : m.nextFreeBlock ≥ m.size := by omega
    simp only [allocate, if_pos hp] at h
    cases hres : resize m (m.size * 2 % SIZE_T_MOD) rawBlocks with
    | none =>
      rw [hres] at h
      exact absurd h (by simp)
    | some r0 =>
      rw [hres] at h
      simp only at h
      rcases resize_cases m _ rawBlocks r0 hres with ⟨_, hr0⟩ | ⟨hlt, hret, _, hsz, _⟩
      · rw [hr0] at h
        simp only [Bool.false_eq_true, if_false] at h
        rw [← Option.some.inj h]
      · rw [hret] at h
        simp only [if_true] at h
        rw [allocateClaim_size _ value _ r h, hsz]
        omega

theorem step_size_le (m m2 : MemoryManager) (h : Step m m2) : m.size ≤ m2.size := by
  cases h with
  | allocateStep value rawBlocks r hrun => exact allocate_size_le m value rawBlocks r hrun
  | freeStep index r hrun =>
    rcases free_cases m index r hrun with ⟨_, hr⟩ | ⟨_, _, hr⟩ | ⟨_, _, hr⟩ <;> rw [hr]
  | writeStep index value r hrun =>
    rcases write_cases m index value r hrun with ⟨_, hr⟩ | ⟨_, _, hr⟩ | ⟨_, _, _, hr⟩ <;>
      rw [hr]
  | readStep index value r hrun => rw [read_state m index value r hrun]
  | resizeStep newSize rawBlocks r hrun =>
    rcases resize_cases m newSize rawBlocks r hrun with ⟨_, hr⟩ | ⟨hlt, _, _, hsz, _⟩
    · rw [hr]
    · rw [hsz]; omega

/-- C11 (resize contract): in a well-formed state resize(newSize) returns; it fails exactly
when newSize is at most the capacity, a failing call returns the object unchanged, and
after a successful call the capacity is newSize. -/
theorem C11_resize_contract (m : MemoryManager) (newSize : Nat) (rawBlocks : Nat → Int)
    (hwf : WF m) :
    ∃ r, resize m newSize rawBlocks = some r ∧
      (r.ret = false ↔ newSize ≤ getSize m) ∧
      (r.ret = false → r.state = m) ∧
      (r.ret = true → getSize r.state = newSize) := by
  by_cases hle : newSize ≤ m.size
  · refine ⟨_, resize_fail m newSize rawBlocks hle, ?_, ?_, ?_⟩
    · exact ⟨fun _ => hle, fun _ => rfl⟩
    · intro _; rfl
    · intro hc; exact absurd hc (by simp)
  · obtain ⟨nb, hres, _, _⟩ := resize_ok m newSize rawBlocks hwf (by omega)
    refine ⟨_, hres, ?_, ?_, ?_⟩
    · exact ⟨fun hc => absurd hc (by simp), fun hc => absurd hc hle⟩
    · intro hc; exact absurd hc (by simp)
    · intro _; rfl

theorem C11_resize_contract_witness :
    ∃ r, resize ⟨[4, 5, 6], 3, [true, false, true], 1⟩ 20 (fun _ => 0) = some r ∧
      (r.ret = false ↔ 20 ≤ getSize ⟨[4, 5, 6], 3, [true, false, true], 1⟩) ∧
      (r.ret = false → r.state = ⟨[4, 5, 6], 3, [true, false, true], 1⟩) ∧
      (r.ret = true → getSize r.state = 20) :=
  C11_resize_contract ⟨[4, 5, 6], 3, [true, false, true], 1⟩ 20 (fun _ => 0) (by decide)

theorem allocate_total (m : MemoryManager) (value : Int) (rawBlocks : Nat → Int)
    (hI : Inv m) : ∃ r, allocate m value rawBlocks = some r := by
  by_cases hg : m.nextFreeBlock < m.size ∨ m.size < m.size * 2 % SIZE_T_MOD
  · obtain ⟨nb, nfb, newSize, hrun, _⟩ := allocate_spec m value rawBlocks hI hg
    exact ⟨_, hrun⟩
  · exact ⟨_, allocate_growFail m value rawBlocks (by omega) (by omega)⟩

theorem free_total (m : MemoryManager) (i : Nat) (hwf : WF m) :
    ∃ r, free m i = some r := by
  by_cases hi : m.size ≤ i
  · exact ⟨_, free_outOfRange m i hi⟩
  · have hlen : i < m.isUsed.length := by rw [hwf.2]; omega
    cases hv : m.isUsed[i] with
    | false => exact ⟨_, free_notInUse m i (by omega) (by rw [List.getElem?_eq_getElem hlen, hv])⟩
    | true => exact ⟨_, free_ok m i (by omega) (by rw [List.getElem?_eq_getElem hlen, hv])⟩

theorem write_total (m : MemoryManager) (i : Nat) (v : Int) (hwf : WF m) :
    ∃ r, write m i v = some r := by
  by_cases hi : m.size ≤ i
  · exact ⟨_, write_outOfRange m i v hi⟩
  · have hlen : i < m.isUsed.length := by rw [hwf.2]; omega
    have hb : i < m.blocks.length := by rw [hwf.1]; omega
    cases hv : m.isUsed[i] with
    | false =>
      exact ⟨_, write_notInUse m i v (by omega) (by rw [List.getElem?_eq_getElem hlen, hv])⟩
    | true =>
      exact ⟨_, write_ok m i v (by omega) hb (by rw [List.getElem?_eq_getElem hlen, hv])⟩

theorem read_total (m : MemoryManager) (i : Nat) (v : Int) (hwf : WF m) :
    ∃ r, read m i v = some r := by
  by_cases hi : m.size ≤ i
  · exact ⟨_, read_outOfRange m i v hi⟩
  · have hlen : i < m.isUsed.length := by rw [hwf.2]; omega
    have hb : i < m.blocks.length := by rw [hwf.1]; omega
    cases hv : m.isUsed[i] with
    | false =>
      exact ⟨_, read_notInUse m i v (by omega) (by rw [List.getElem?_eq_getElem hlen, hv])⟩
    | true =>
      exact ⟨_, read_ok m i v _ (by omega) (by rw [List.getElem?_eq_getElem hlen, hv])
        (List.getElem?_eq_getElem hb)⟩

theorem resize_total (m : MemoryManager) (newSize : Nat) (rawBlocks : Nat → Int)
    (hwf : WF m) : ∃ r, resize m newSize rawBlocks = some r := by
  by_cases hle : newSize ≤ m.size
  · exact ⟨_, resize_fail m newSize rawBlocks hle⟩
  · obtain ⟨nb, hres, _⟩ := resize_ok m newSize rawBlocks hwf (by omega)
    exact ⟨_, hres⟩

/-- C12 (capacity monotonicity, P4): whatever the arguments and the result, one call of
allocate, free, write, read or resize leaves a capacity at least as large as before, hence
so does any sequence of calls; and from a state that satisfies the invariant each of the
calls does return. -/
theorem C12_capacity_monotone (m : MemoryManager) :
    (∀ v rawBlocks r, allocate m v rawBlocks = some r → getSize m ≤ getSize r.state) ∧
    (∀ i r, free m i = some r → getSize m ≤ getSize r.state) ∧
    (∀ i v r, write m i v = some r → getSize m ≤ getSize r.state) ∧
    (∀ i value0 r, read m i value0 = some r → getSize m ≤ getSize r.state) ∧
    (∀ newSize rawBlocks r, requestResize m newSize rawBlocks = some r →
      getSize m ≤ getSize r.state) ∧
    (∀ m2, Relation.ReflTransGen Step m m2 → getSize m ≤ getSize m2) ∧
    (Inv m → ∀ (i newSize : Nat) (v : Int) (rawBlocks : Nat → Int),
      (∃ r, allocate m v rawBlocks = some r) ∧ (∃ r, free m i = some r) ∧
      (∃ r, write m i v = some r) ∧ (∃ r, read m i v = some r) ∧
      (∃ r, requestResize m newSize rawBlocks = some r)) := by
  refine ⟨?_, ?_, ?_, ?_, ?_, ?_, ?_⟩
  · intro v rawBlocks r h
    exact step_size_le m _ (Step.allocateStep m v rawBlocks r h)
  · intro i r h
    exact step_size_le m _ (Step.freeStep m i r h)
  · intro i v r h
    exact step_size_le m _ (Step.writeStep m i v r h)
  · intro i value0 r h
    exact step_size_le m _ (Step.readStep m i value0 r h)
  · intro newSize rawBlocks r h
    exact step_size_le m _ (Step.resizeStep m newSize rawBlocks r h)
  · intro m2 h
    induction h with
    | refl => exact le_refl _
    | tail _ hstep ih => exact le_trans ih (step_size_le _ _ hstep)
  · intro hI i newSize v rawBlocks
    exact ⟨allocate_total m v rawBlocks hI, free_total m i hI.wf, write_total m i v hI.wf,
      read_total m i v hI.wf, resize_total m newSize rawBlocks hI.wf⟩

theorem C12_capacity_monotone_witness :
    getSize ⟨[1, 2, 3], 3, [true, true, true], 3⟩ ≤
      getSize ⟨[1, 2, 3, 9, 0, 0], 6, [true, true, true, true, false, false], 4⟩ :=
  (C12_capacity_monotone ⟨[1, 2, 3], 3, [true, true, true], 3⟩).1 9 (fun _ => 0)
    ⟨3, [], ⟨[1, 2, 3, 9, 0, 0], 6, [true, true, true, true, false, false], 4⟩⟩ (by decide)

/-- C16 (cursor invariant): in every state reachable from the constructor with all flags
initially false, by calls of allocate, free, write, read and resize of whatever outcome,
every index below the cursor is in use, the slot under the cursor is free when the cursor
is below the capacity, and no free slot in range lies below the cursor: the cursor is the
lowest free index or equals the capacity. -/
theorem C16_cursor_invariant (m : MemoryManager) (hr : Reachable m) :
    (∀ j, j < m.nextFreeBlock → isBlockUsed m j = some true) ∧
    (m.nextFreeBlock < getSize m → isBlockUsed m m.nextFreeBlock = some false) ∧
    (∀ j, j < getSize m → isBlockUsed m j = some false → m.nextFreeBlock ≤ j) ∧
    ((m.nextFreeBlock < getSize m ∧ isBlockUsed m m.nextFreeBlock = some false) ∨
      m.nextFreeBlock = getSize m) := by
  have hI := reachable_inv m hr
  refine ⟨hI.below_used, hI.cursor_free, ?_, ?_⟩
  · intro j _ hfree
    by_contra hlt
    have hused := hI.below_used j (by omega)
    unfold isBlockUsed at hfree
    rw [hused] at hfree
    exact absurd hfree (by simp)
  · by_cases hc : m.nextFreeBlock < m.size
    · exact Or.inl ⟨hc, hI.cursor_free hc⟩
    · have := hI.cursor_le
      exact Or.inr (show m.nextFreeBlock = m.size by omega)

theorem C16_cursor_invariant_witness :
    (∀ j, j < 1 → isBlockUsed ⟨[42, 0, 0], 3, [true, false, false], 1⟩ j = some true) ∧
    (1 < getSize ⟨[42, 0, 0], 3, [true, false, false], 1⟩ →
      isBlockUsed ⟨[42, 0, 0], 3, [true, false, false], 1⟩ 1 = some false) ∧
    (∀ j, j < getSize ⟨[42, 0, 0], 3, [true, false, false], 1⟩ →
      isBlockUsed ⟨[42, 0, 0], 3, [true, false, false], 1⟩ j = some false → 1 ≤ j) ∧
    ((1 < getSize ⟨[42, 0, 0], 3, [true, false, false], 1⟩ ∧
        isBlockUsed ⟨[42, 0, 0], 3, [true, false, false], 1⟩ 1 = some false) ∨
      1 = getSize ⟨[42, 0, 0], 3, [true, false, false], 1⟩) :=
  C16_cursor_invariant ⟨[42, 0, 0], 3, [true, false, false], 1⟩
    (Reachable.allocateStep (construct 3 (fun _ => 0) (fun _ => false)) 42 (fun _ => 0)
      ⟨0, [], ⟨[42, 0, 0], 3, [true, false, false], 1⟩⟩
      (Reachable.init 3 (fun _ => 0) (by decide)) (by decide))

/-- Two objects of the same capacity that agree on the flag and the value of slot i give
read(i) the same result. -/
theorem read_observed_same (m m2 : MemoryManager) (i : Nat) (value0 : Int)
    (hs : m2.size = m.size) (hu : m2.isUsed[i]? = m.isUsed[i]?)
    (hb : m2.blocks[i]? = m.blocks[i]?) :
    (read m2 i value0).map Outcome.observed = (read m i value0).map Outcome.observed := by
  by_cases hi : m.size ≤ i
  · rw [read_outOfRange m i value0 hi, read_outOfRange m2 i value0 (by omega)]
    rfl
  · exact read_observed_congr m m2 i value0 (by omega) (by omega) hu hb

/-- C19 (free touches only its slot): when free(i) succeeds the capacity and the value
array are as before, every slot other than i keeps its flag, so that read of it gives the
same result, slot i is free, and the cursor is the smaller of the old cursor and i. In a
well-formed state free(i) succeeds whenever i is in range and in use. -/
theorem C19_free_frame (m : MemoryManager) (i : Nat) :
    (∀ out m1, free m i = some ⟨true, out, m1⟩ →
      getSize m1 = getSize m ∧ m1.blocks = m.blocks ∧
      (∀ j, j ≠ i → isBlockUsed m1 j = isBlockUsed m j ∧
        ∀ value0, (read m1 j value0).map Outcome.observed =
          (read m j value0).map Outcome.observed) ∧
      isBlockUsed m1 i = some false ∧
      m1.nextFreeBlock = min m.nextFreeBlock i) ∧
    (i < getSize m → isBlockUsed m i = some true → ∃ m1, free m i = some ⟨true, [], m1⟩) := by
  refine ⟨?_, fun hi hu => ⟨_, free_ok m i hi hu⟩⟩
  intro out m1 hf
  rcases free_cases m i _ hf with ⟨_, hr⟩ | ⟨_, _, hr⟩ | ⟨hi, hu, hr⟩
  · exact absurd (congrArg Outcome.ret hr) (by simp)
  · exact absurd (congrArg Outcome.ret hr) (by simp)
  · have hm1 := congrArg Outcome.state hr
    simp only at hm1
    subst hm1
    have hlen : i < m.isUsed.length := by
      by_contra hc
      rw [List.getElem?_eq_none (by omega)] at hu
      exact absurd hu (by simp)
    refine ⟨rfl, rfl, ?_, ?_, ?_⟩
    · intro j hj
      have hflag : (m.isUsed.set i false)[j]? = m.isUsed[j]? :=
        List.getElem?_set_ne (fun h => hj h.symm)
      exact ⟨hflag, fun value0 => read_observed_same m _ j value0 rfl hflag rfl⟩
    · show (m.isUsed.set i false)[i]? = some false
      rw [List.getElem?_set, if_pos rfl, if_pos hlen]
    · show (if i < m.nextFreeBlock then i else m.nextFreeBlock) = min m.nextFreeBlock i
      split <;> omega

theorem C19_free_frame_witness :
    getSize ⟨[100, 73, 0], 3, [false, true, false], 0⟩ =
        getSize ⟨[100, 73, 0], 3, [true, true, false], 2⟩ ∧
      (MemoryManager.mk [100, 73, 0] 3 [false, true, false] 0).blocks = [100, 73, 0] ∧
      (∀ j, j ≠ 0 → isBlockUsed ⟨[100, 73, 0], 3, [false, true, false], 0⟩ j =
          isBlockUsed ⟨[100, 73, 0], 3, [true, true, false], 2⟩ j ∧
        ∀ value0, (read ⟨[100, 73, 0], 3, [false, true, false], 0⟩ j value0).map
            Outcome.observed =
          (read ⟨[100, 73, 0], 3, [true, true, false], 2⟩ j value0).map Outcome.observed) ∧
      isBlockUsed ⟨[100, 73, 0], 3, [false, true, false], 0⟩ 0 = some false ∧
      (MemoryManager.mk [100, 73, 0] 3 [false, true, false] 0).nextFreeBlock = min 2 0 :=
  (C19_free_frame ⟨[100, 73, 0], 3, [true, true, false], 2⟩ 0).1 []
    ⟨[100, 73, 0], 3, [false, true, false], 0⟩ (by decide)

/-- C20 (write touches only its value): a successful write(i, v) leaves the capacity, the
cursor, every flag and the value of every slot other than i as they were, and slot i holds
v; a failing write, the index out of range or the slot not in use, returns the object
unchanged. In a well-formed state write returns. -/
theorem C20_write_frame (m : MemoryManager) (i : Nat) (v : Int) :
    (∀ r, write m i v = some r →
      (r.ret = true → getSize r.state = getSize m ∧
        r.state.nextFreeBlock = m.nextFreeBlock ∧ r.state.isUsed = m.isUsed ∧
        (∀ j, j ≠ i → r.state.blocks[j]? = m.blocks[j]?) ∧ r.state.blocks[i]? = some v) ∧
      (r.ret = false → r.state = m ∧
        (getSize m ≤ i ∨ isBlockUsed m i = some false))) ∧
    (WF m → ∃ r, write m i v = some r) := by
  refine ⟨?_, write_total m i v⟩
  intro r h
  rcases write_cases m i v r h with ⟨hi, hr⟩ | ⟨_, hu, hr⟩ | ⟨_, hb, _, hr⟩
  · rw [hr]
    exact ⟨fun hc => absurd hc (by simp), fun _ => ⟨rfl, Or.inl hi⟩⟩
  · rw [hr]
    exact ⟨fun hc => absurd hc (by simp), fun _ => ⟨rfl, Or.inr hu⟩⟩
  · rw [hr]
    refine ⟨fun _ => ⟨rfl, rfl, rfl, ?_, ?_⟩, fun hc => absurd hc (by simp)⟩
    · intro j hj
      exact List.getElem?_set_ne (fun h => hj h.symm)
    · show (m.blocks.set i v)[i]? = some v
      rw [List.getElem?_set, if_pos rfl, if_pos hb]

theorem C20_write_frame_witness :
    ∃ r, write ⟨[42, 73, 0], 3, [true, true, false], 2⟩ 0 100 = some r ∧
      (r.ret = true → getSize r.state = getSize ⟨[42, 73, 0], 3, [true, true, false], 2⟩ ∧
        r.state.nextFreeBlock = 2 ∧ r.state.isUsed = [true, true, false] ∧
        (∀ j, j ≠ 0 → r.state.blocks[j]? = ([42, 73, 0] : List Int)[j]?) ∧
        r.state.blocks[0]? = some 100) :=
  ⟨⟨true, [], ⟨[100, 73, 0], 3, [true, true, false], 2⟩⟩, by decide,
    ((C20_write_frame ⟨[42, 73, 0], 3, [true, true, false], 2⟩ 0 100).1
      ⟨true, [], ⟨[100, 73, 0], 3, [true, true, false], 2⟩⟩ (by decide)).1⟩

/-! ## The states of an execution -/

theorem fits_double (n : Nat) (h : newIntFits n) : n * 2 < SIZE_T_MOD := by
  unfold newIntFits SIZEOF_INT at h
  omega

theorem fits_lt (n : Nat) (h : newIntFits n) : n < SIZE_T_MOD := by
  unfold newIntFits SIZEOF_INT at h
  omega

theorem free_size (m : MemoryManager) (i : Nat) (r : Outcome Bool)
    (h : free m i = some r) : r.state.size = m.size := by
  rcases free_cases m i r h with ⟨_, hr⟩ | ⟨_, _, hr⟩ | ⟨_, _, hr⟩ <;> rw [hr]

theorem write_size (m : MemoryManager) (i : Nat) (v : Int) (r : Outcome Bool)
    (h : write m i v = some r) : r.state.size = m.size := by
  rcases write_cases m i v r h with ⟨_, hr⟩ | ⟨_, _, hr⟩ | ⟨_, _, _, hr⟩ <;> rw [hr]

/-- A state of an execution is reachable, and new can deliver arrays of its capacity. -/
theorem live_reachable (m : MemoryManager) (h : Live m) :
    Reachable m ∧ newIntFits m.size := by
  induction h with
  | init numBlocks rawBlocks hfit =>
    exact ⟨Reachable.init numBlocks rawBlocks (fits_lt numBlocks hfit), hfit⟩
  | allocateStep m value rawBlocks r _ hrun hfit ih =>
    exact ⟨Reachable.allocateStep m value rawBlocks r ih.1 hrun, hfit⟩
  | freeStep m index r _ hrun ih =>
    refine ⟨Reachable.freeStep m index r ih.1 hrun, ?_⟩
    rw [free_size m index r hrun]
    exact ih.2
  | writeStep m index value r _ hrun ih =>
    refine ⟨Reachable.writeStep m index value r ih.1 hrun, ?_⟩
    rw [write_size m index value r hrun]
    exact ih.2
  | readStep m index value r _ hrun ih =>
    refine ⟨Reachable.readStep m index value r ih.1 hrun, ?_⟩
    rw [read_state m index value r hrun]
    exact ih.2
  | resizeStep m newSize rawBlocks r _ hn hrun hfit ih =>
    exact ⟨Reachable.resizeStep m newSize rawBlocks r ih.1 hn hrun, hfit⟩

/-- In a state that satisfies the invariant, a free slot in range puts the cursor below the
capacity. -/
theorem free_or_room (m : MemoryManager) (hI : Inv m)
    (hg : (∃ j, j < getSize m ∧ isBlockUsed m j = some false) ∨
      getSize m * 2 < SIZE_T_MOD) :
    m.nextFreeBlock < m.size ∨ m.size * 2 < SIZE_T_MOD := by
  rcases hg with ⟨j, hj, hfree⟩ | h
  · left
    by_contra hc
    have hj2 : j < m.size := hj
    have hused := hI.below_used j (by omega)
    have hfree2 : m.isUsed[j]? = some false := hfree
    rw [hused] at hfree2
    exact absurd hfree2 (by simp)
  · exact Or.inr h

/-- The hypothesis under which allocate can claim a slot, in the form allocate_spec takes. -/
theorem can_claim (m : MemoryManager) (h1 : 1 ≤ m.size)
    (hg : m.nextFreeBlock < m.size ∨ m.size * 2 < SIZE_T_MOD) :
    m.nextFreeBlock < m.size ∨ m.size < m.size * 2 % SIZE_T_MOD := by
  rcases hg with h | h
  · exact Or.inl h
  · exact Or.inr (double_gt m.size h1 h)

/-- Allocate does not disturb live data, in a reachable state where a slot is free or the
doubled capacity does not wrap. -/
theorem allocate_frame (m : MemoryManager) (v : Int) (rawBlocks : Nat → Int)
    (hr : Reachable m) (h1 : 1 ≤ getSize m)
    (hg : (∃ j, j < getSize m ∧ isBlockUsed m j = some false) ∨
      getSize m * 2 < SIZE_T_MOD) :
    ∃ r, allocate m v rawBlocks = some r ∧ ∀ j, j < getSize m →
      (isBlockUsed m j = some true →
        r.ret ≠ j ∧ isBlockUsed r.state j = some true ∧
        ∀ value0, (read r.state j value0).map Outcome.observed =
          (read m j value0).map Outcome.observed) ∧
      (isBlockUsed m j = some false → j ≠ r.ret → isBlockUsed r.state j = some false) := by
  have hI := reachable_inv m hr
  obtain ⟨nb, nfb, newSize, hrun, hcase, hlen, hget, hcn, _, hfreeAt⟩ :=
    allocate_spec m v rawBlocks hI (can_claim m h1 (free_or_room m hI hg))
  have hu := hI.wf.2
  have hsz : m.size ≤ newSize := by
    rcases hcase with ⟨_, h⟩ | ⟨_, _, h⟩ <;> omega
  refine ⟨_, hrun, ?_⟩
  intro j hj
  have hj2 : j < m.size := hj
  have hold : (m.isUsed ++ List.replicate (newSize - m.size) false)[j]? = m.isUsed[j]? :=
    List.getElem?_append_left (by omega)
  refine ⟨?_, ?_⟩
  · intro hused
    have hused2 : m.isUsed[j]? = some true := hused
    have hne : m.nextFreeBlock ≠ j := by
      intro heq
      rw [heq, hold, hused2] at hfreeAt
      exact absurd hfreeAt (by simp)
    have hflag : ((m.isUsed ++ List.replicate (newSize - m.size) false).set
        m.nextFreeBlock true)[j]? = m.isUsed[j]? := by
      rw [List.getElem?_set_ne hne, hold]
    have hval : (nb.set m.nextFreeBlock v)[j]? = m.blocks[j]? := by
      rw [List.getElem?_set_ne hne, hget j hj2]
    refine ⟨hne, ?_, fun value0 => ?_⟩
    · exact hflag.trans hused2
    · exact read_observed_congr m _ j value0 hj2 (show j < newSize by omega) hflag hval
  · intro hfree hne
    have hfree2 : m.isUsed[j]? = some false := hfree
    show ((m.isUsed ++ List.replicate (newSize - m.size) false).set
        m.nextFreeBlock true)[j]? = some false
    rw [List.getElem?_set_ne (fun h => hne h.symm), hold, hfree2]

/-- C18 (allocate does not disturb live data, P5, auto-growth): in every state of an
execution that starts with all flags false, with capacity at least 1, allocate(v) returns;
for every index j in range, if slot j was in use the returned index differs from j, slot j
is still in use and read(j) gives the same result as before, also when the call grows the
capacity; and if slot j was free and is not the returned index it is still free. -/
theorem C18_allocate_frame (m : MemoryManager) (v : Int) (rawBlocks : Nat → Int)
    (hl : Live m) (h1 : 1 ≤ getSize m) :
    ∃ r, allocate m v rawBlocks = some r ∧ ∀ j, j < getSize m →
      (isBlockUsed m j = some true →
        r.ret ≠ j ∧ isBlockUsed r.state j = some true ∧
        ∀ value0, (read r.state j value0).map Outcome.observed =
          (read m j value0).map Outcome.observed) ∧
      (isBlockUsed m j = some false → j ≠ r.ret → isBlockUsed r.state j = some false) := by
  obtain ⟨hr, hfit⟩ := live_reachable m hl
  exact allocate_frame m v rawBlocks hr h1 (Or.inr (fits_double m.size hfit))

theorem C18_allocate_frame_witness :
    ∃ r, allocate ⟨[1, 2, 3], 3, [true, true, true], 3⟩ 9 (fun _ => 0) = some r ∧
      ∀ j, j < getSize ⟨[1, 2, 3], 3, [true, true, true], 3⟩ →
      (isBlockUsed ⟨[1, 2, 3], 3, [true, true, true], 3⟩ j = some true →
        r.ret ≠ j ∧ isBlockUsed r.state j = some true ∧
        ∀ value0, (read r.state j value0).map Outcome.observed =
          (read ⟨[1, 2, 3], 3, [true, true, true], 3⟩ j value0).map Outcome.observed) ∧
      (isBlockUsed ⟨[1, 2, 3], 3, [true, true, true], 3⟩ j = some false → j ≠ r.ret →
        isBlockUsed r.state j = some false) :=
  C18_allocate_frame ⟨[1, 2, 3], 3, [true, true, true], 3⟩ 9 (fun _ => 0)
    (Live.allocateStep ⟨[1, 2, 0], 3, [true, true, false], 2⟩ 3 (fun _ => 0)
      ⟨2, [], ⟨[1, 2, 3], 3, [true, true, true], 3⟩⟩
      (Live.allocateStep ⟨[1, 0, 0], 3, [true, false, false], 1⟩ 2 (fun _ => 0)
        ⟨1, [], ⟨[1, 2, 0], 3, [true, true, false], 2⟩⟩
        (Live.allocateStep (construct 3 (fun _ => 0) (fun _ => false)) 1 (fun _ => 0)
          ⟨0, [], ⟨[1, 0, 0], 3, [true, false, false], 1⟩⟩
          (Live.init 3 (fun _ => 0) (by decide)) (by decide) (by decide))
        (by decide) (by decide))
      (by decide) (by decide))
    (by decide)

/-! ## Counting free slots -/

theorem countLoop_spec (isUsed : List Bool) :
    ∀ (fuel i count : Nat), i + fuel ≤ isUsed.length → count + fuel < SIZE_T_MOD →
      countLoop isUsed fuel i count =
        some (count + ((isUsed.drop i).take fuel).count false) := by
  intro fuel
  induction fuel with
  | zero =>
    intro i count _ _
    simp [countLoop]
  | succ fuel ih =>
    intro i count h1 h2
    have hi : i < isUsed.length := by omega
    rw [countLoop, List.getElem?_eq_getElem hi]
    simp only
    rw [List.drop_eq_getElem_cons hi, List.take_succ_cons, List.count_cons]
    cases hv : isUsed[i] with
    | false =>
      have hmod : (count + 1) % SIZE_T_MOD = count + 1 := Nat.mod_eq_of_lt (by omega)
      simp only [Bool.not_false, if_true, hmod]
      rw [ih (i + 1) (count + 1) (by omega) (by omega)]
      simp
      omega
    | true =>
      simp only [Bool.not_true, Bool.false_eq_true, if_false]
      rw [ih (i + 1) count (by omega) (by omega)]
      simp

theorem getNumFreeBlocks_eq (m : MemoryManager) (hwf : WF m) (hb : m.size < SIZE_T_MOD) :
    getNumFreeBlocks m = some (freeCount m) := by
  unfold getNumFreeBlocks freeCount
  rw [countLoop_spec m.isUsed m.size 0 0 (by rw [hwf.2]; omega) (by omega)]
  rw [List.drop_zero, ← hwf.2, List.take_length, Nat.zero_add]

theorem freeCount_eq_zero_iff (m : MemoryManager) (hwf : WF m) :
    freeCount m = 0 ↔ ¬ ∃ j, j < getSize m ∧ isBlockUsed m j = some false := by
  unfold freeCount isBlockUsed getSize
  rw [List.count_eq_zero, List.mem_iff_getElem?]
  constructor
  · intro h ⟨j, _, hj⟩
    exact h ⟨j, hj⟩
  · intro h ⟨j, hj⟩
    have hlen : j < m.isUsed.length := by
      by_contra hc
      rw [List.getElem?_eq_none (by omega)] at hj
      exact absurd hj (by simp)
    exact h ⟨j, by rw [← hwf.2]; exact hlen, hj⟩

/-- In a state that satisfies the invariant, a slot is free exactly when the cursor is
below the capacity. -/
theorem exists_free_iff (m : MemoryManager) (hI : Inv m) :
    (∃ j, j < getSize m ∧ isBlockUsed m j = some false) ↔ m.nextFreeBlock < m.size := by
  constructor
  · intro ⟨j, hj, hfree⟩
    by_contra hc
    have hj2 : j < m.size := hj
    have hused := hI.below_used j (by omega)
    have hfree2 : m.isUsed[j]? = some false := hfree
    rw [hused] at hfree2
    exact absurd hfree2 (by simp)
  · intro hc
    exact ⟨m.nextFreeBlock, hc, hI.cursor_free hc⟩

/-- Lowest-index-first allocation, in a reachable state where a slot is free or the doubled
capacity does not wrap. -/
theorem lowest_free_first (m : MemoryManager) (v : Int) (rawBlocks : Nat → Int)
    (hr : Reachable m) (h1 : 1 ≤ getSize m)
    (hg : (∃ j, j < getSize m ∧ isBlockUsed m j = some false) ∨
      getSize m * 2 < SIZE_T_MOD) :
    ∃ r, allocate m v rawBlocks = some r ∧
      ((∃ j, j < getSize m ∧ isBlockUsed m j = some false) →
        r.ret < getSize m ∧ isBlockUsed m r.ret = some false ∧
        (∀ j, j < getSize m → isBlockUsed m j = some false → r.ret ≤ j) ∧
        getSize r.state = getSize m) ∧
      ((¬ ∃ j, j < getSize m ∧ isBlockUsed m j = some false) →
        getSize r.state = getSize m * 2 ∧ r.ret = getSize m) ∧
      (getSize m < getSize r.state ↔ getNumFreeBlocks m = some 0) ∧
      isBlockUsed m r.ret ≠ some true := by
  have hI := reachable_inv m hr
  have hfree := exists_free_iff m hI
  have hg2 : m.nextFreeBlock < m.size ∨ m.size * 2 < SIZE_T_MOD := by
    rcases hg with h | h
    · exact Or.inl (hfree.mp h)
    · exact Or.inr h
  obtain ⟨nb, nfb, newSize, hrun, hcase, _, _, _, _, _⟩ :=
    allocate_spec m v rawBlocks hI (can_claim m h1 hg2)
  have hcl := hI.cursor_le
  have hu := hI.wf.2
  refine ⟨_, hrun, ?_, ?_, ?_, ?_⟩
  · intro hex
    have hc := hfree.mp hex
    have hns : newSize = m.size := by
      rcases hcase with ⟨_, h⟩ | ⟨h, _, _⟩
      · exact h
      · omega
    refine ⟨hc, hI.cursor_free hc, ?_, hns⟩
    intro j _ hjf
    by_contra hlt
    have hlt2 : ¬ m.nextFreeBlock ≤ j := hlt
    have hused := hI.below_used j (by omega)
    have hjf2 : m.isUsed[j]? = some false := hjf
    rw [hused] at hjf2
    exact absurd hjf2 (by simp)
  · intro hnex
    have hc : ¬ m.nextFreeBlock < m.size := fun h => hnex (hfree.mpr h)
    have hover : m.size * 2 < SIZE_T_MOD := by
      rcases hg2 with h | h
      · exact absurd h hc
      · exact h
    rcases hcase with ⟨h, _⟩ | ⟨hceq, hns, _⟩
    · exact absurd h hc
    · refine ⟨?_, hceq⟩
      show newSize = m.size * 2
      rw [hns, Nat.mod_eq_of_lt hover]
  · rw [getNumFreeBlocks_eq m hI.wf hI.bound]
    have hz := (freeCount_eq_zero_iff m hI.wf).trans (not_congr hfree)
    constructor
    · intro hlt
      have hlt2 : m.size < newSize := hlt
      have hc : ¬ m.nextFreeBlock < m.size := by
        rcases hcase with ⟨_, h⟩ | ⟨h, _, _⟩ <;> omega
      rw [hz.mpr hc]
    · intro h0
      have hc := hz.mp (Option.some.inj h0)
      rcases hcase with ⟨h, _⟩ | ⟨_, _, h⟩
      · exact absurd h hc
      · exact h
  · show m.isUsed[m.nextFreeBlock]? ≠ some true
    by_cases hc : m.nextFreeBlock < m.size
    · rw [hI.cursor_free hc]
      simp
    · rw [List.getElem?_eq_none (by omega)]
      simp

/-- C15 (lowest-index-first allocation): in every state of an execution that starts with
all flags false, with capacity at least 1, allocate(v) returns. If some slot is free it
returns the smallest index whose slot is free and leaves the capacity unchanged; if no slot
is free it doubles the capacity and returns the old capacity. The capacity grows exactly
when getNumFreeBlocks is 0, and the returned slot was not in use. -/
theorem C15_lowest_free_first (m : MemoryManager) (v : Int) (rawBlocks : Nat → Int)
    (hl : Live m) (h1 : 1 ≤ getSize m) :
    ∃ r, allocate m v rawBlocks = some r ∧
      ((∃ j, j < getSize m ∧ isBlockUsed m j = some false) →
        r.ret < getSize m ∧ isBlockUsed m r.ret = some false ∧
        (∀ j, j < getSize m → isBlockUsed m j = some false → r.ret ≤ j) ∧
        getSize r.state = getSize m) ∧
      ((¬ ∃ j, j < getSize m ∧ isBlockUsed m j = some false) →
        getSize r.state = getSize m * 2 ∧ r.ret = getSize m) ∧
      (getSize m < getSize r.state ↔ getNumFreeBlocks m = some 0) ∧
      isBlockUsed m r.ret ≠ some true := by
  obtain ⟨hr, hfit⟩ := live_reachable m hl
  exact lowest_free_first m v rawBlocks hr h1 (Or.inr (fits_double m.size hfit))

theorem C15_lowest_free_first_witness :
    ∃ r, allocate ⟨[1, 2, 3], 3, [true, true, true], 3⟩ 9 (fun _ => 0) = some r ∧
      ((∃ j, j < getSize ⟨[1, 2, 3], 3, [true, true, true], 3⟩ ∧
          isBlockUsed ⟨[1, 2, 3], 3, [true, true, true], 3⟩ j = some false) →
        r.ret < getSize ⟨[1, 2, 3], 3, [true, true, true], 3⟩ ∧
        isBlockUsed ⟨[1, 2, 3], 3, [true, true, true], 3⟩ r.ret = some false ∧
        (∀ j, j < getSize ⟨[1, 2, 3], 3, [true, true, true], 3⟩ →
          isBlockUsed ⟨[1, 2, 3], 3, [true, true, true], 3⟩ j = some false → r.ret ≤ j) ∧
        getSize r.state = getSize ⟨[1, 2, 3], 3, [true, true, true], 3⟩) ∧
      ((¬ ∃ j, j < getSize ⟨[1, 2, 3], 3, [true, true, true], 3⟩ ∧
          isBlockUsed ⟨[1, 2, 3], 3, [true, true, true], 3⟩ j = some false) →
        getSize r.state = getSize ⟨[1, 2, 3], 3, [true, true, true], 3⟩ * 2 ∧
        r.ret = getSize ⟨[1, 2, 3], 3, [true, true, true], 3⟩) ∧
      (getSize ⟨[1, 2, 3], 3, [true, true, true], 3⟩ < getSize r.state ↔
        getNumFreeBlocks ⟨[1, 2, 3], 3, [true, true, true], 3⟩ = some 0) ∧
      isBlockUsed ⟨[1, 2, 3], 3, [true, true, true], 3⟩ r.ret ≠ some true :=
  C15_lowest_free_first ⟨[1, 2, 3], 3, [true, true, true], 3⟩ 9 (fun _ => 0)
    (Live.allocateStep ⟨[1, 2, 0], 3, [true, true, false], 2⟩ 3 (fun _ => 0)
      ⟨2, [], ⟨[1, 2, 3], 3, [true, true, true], 3⟩⟩
      (Live.allocateStep ⟨[1, 0, 0], 3, [true, false, false], 1⟩ 2 (fun _ => 0)
        ⟨1, [], ⟨[1, 2, 0], 3, [true, true, false], 2⟩⟩
        (Live.allocateStep (construct 3 (fun _ => 0) (fun _ => false)) 1 (fun _ => 0)
          ⟨0, [], ⟨[1, 0, 0], 3, [true, false, false], 1⟩⟩
          (Live.init 3 (fun _ => 0) (by decide)) (by decide) (by decide))
        (by decide) (by decide))
      (by decide) (by decide))
    (by decide)

theorem count_set_false (l : List Bool) (i : Nat) (h : l[i]? = some true) :
    (l.set i false).count false = l.count false + 1 := by
  obtain ⟨hlen, hv⟩ := List.getElem?_eq_some.mp h
  rw [List.count_set false false l i hlen, hv]
  simp

theorem count_set_true (l : List Bool) (i : Nat) (h : l[i]? = some false) :
    (l.set i true).count false + 1 = l.count false := by
  obtain ⟨hlen, hv⟩ := List.getElem?_eq_some.mp h
  have hpos : 0 < l.count false :=
    List.count_pos_iff.mpr (List.mem_iff_getElem?.mpr ⟨i, h⟩)
  rw [List.count_set true false l i hlen, hv]
  simp
  omega

/-- Free-count accounting in a reachable state; the count after allocate is given where a
slot is free or the doubled capacity does not wrap. A call of allocate that writes a line
is one whose growth resize refused. -/
theorem free_count (m : MemoryManager) (hr : Reachable m) :
    ∃ n, getNumFreeBlocks m = some n ∧
      (∀ i out m1, free m i = some ⟨true, out, m1⟩ → getNumFreeBlocks m1 = some (n + 1)) ∧
      (1 ≤ getSize m →
        ((∃ j, j < getSize m ∧ isBlockUsed m j = some false) ∨
          getSize m * 2 < SIZE_T_MOD) →
        ∀ v rawBlocks, ∃ r a, allocate m v rawBlocks = some r ∧
          getNumFreeBlocks r.state = some a ∧
          a + 1 = n + (getSize r.state - getSize m)) ∧
      (∀ i v r, write m i v = some r → getNumFreeBlocks r.state = some n) ∧
      (∀ i value0 r, read m i value0 = some r → getNumFreeBlocks r.state = some n) ∧
      (∀ i r, free m i = some r → r.ret = false → getNumFreeBlocks r.state = some n) ∧
      (∀ newSize rawBlocks r, requestResize m newSize rawBlocks = some r → r.ret = false →
        getNumFreeBlocks r.state = some n) ∧
      (∀ v rawBlocks r, allocate m v rawBlocks = some r → r.out ≠ [] →
        getNumFreeBlocks r.state = some n) := by
  have hI := reachable_inv m hr
  have hn := getNumFreeBlocks_eq m hI.wf hI.bound
  refine ⟨freeCount m, hn, ?_, ?_, ?_, ?_, ?_, ?_, ?_⟩
  · intro i out m1 hf
    have hI1 := free_inv m i _ hI hf
    have hI1b : Inv m1 := hI1
    rw [getNumFreeBlocks_eq m1 hI1b.wf hI1b.bound]
    rcases free_cases m i _ hf with ⟨_, hr⟩ | ⟨_, _, hr⟩ | ⟨_, hu, hr⟩
    · exact absurd (congrArg Outcome.ret hr) (by simp)
    · exact absurd (congrArg Outcome.ret hr) (by simp)
    · have hm1 := congrArg Outcome.state hr
      simp only at hm1
      subst hm1
      show some ((m.isUsed.set i false).count false) = some (m.isUsed.count false + 1)
      rw [count_set_false m.isUsed i hu]
  · intro h1 hg v rawBlocks
    obtain ⟨nb, nfb, newSize, hrun, hcase, _, _, _, _, hfreeAt⟩ :=
      allocate_spec m v rawBlocks hI (can_claim m h1 (free_or_room m hI hg))
    have hI2 := allocate_inv m v rawBlocks _ hI hrun
    refine ⟨_, _, hrun, getNumFreeBlocks_eq _ hI2.wf hI2.bound, ?_⟩
    have hsz : m.size ≤ newSize := by
      rcases hcase with ⟨_, h⟩ | ⟨_, _, h⟩ <;> omega
    show ((m.isUsed ++ List.replicate (newSize - m.size) false).set m.nextFreeBlock
        true).count false + 1 = m.isUsed.count false + (newSize - m.size)
    rw [count_set_true _ _ hfreeAt, List.count_append, List.count_replicate_self]
  · intro i v r hw
    rcases write_cases m i v r hw with ⟨_, hr⟩ | ⟨_, _, hr⟩ | ⟨_, _, _, hr⟩
    · rw [hr]; exact hn
    · rw [hr]; exact hn
    · rw [hr]
      have hIw := write_inv m i v r hI hw
      rw [hr] at hIw
      rw [getNumFreeBlocks_eq _ hIw.wf hIw.bound]
      rfl
  · intro i value0 r hrd
    rw [read_state m i value0 r hrd]
    exact hn
  · intro i r hf hret
    rcases free_cases m i r hf with ⟨_, hr⟩ | ⟨_, _, hr⟩ | ⟨_, _, hr⟩
    · rw [hr]; exact hn
    · rw [hr]; exact hn
    · rw [hr] at hret
      exact absurd hret (by simp)
  · intro newSize rawBlocks r hrs hret
    rcases resize_cases m newSize rawBlocks r hrs with ⟨_, hr⟩ | ⟨_, ht, _⟩
    · rw [hr]; exact hn
    · rw [ht] at hret
      exact absurd hret (by simp)
  · intro v rawBlocks r hrun hout
    by_cases hg : m.nextFreeBlock < m.size ∨ m.size < m.size * 2 % SIZE_T_MOD
    · obtain ⟨nb, nfb, newSize, hspec, _⟩ := allocate_spec m v rawBlocks hI hg
      rw [hspec] at hrun
      rw [← Option.some.inj hrun] at hout
      exact absurd rfl hout
    · rw [allocate_growFail m v rawBlocks (by omega) (by omega)] at hrun
      rw [← Option.some.inj hrun]
      exact hn

/-- C14 (free-count accounting): in every state of an execution that starts with all flags
false, getNumFreeBlocks returns a count n. A successful free makes it n + 1. When the
capacity is at least 1, allocate makes it a with a + 1 = n + (size after - size before), so
one less when the capacity does not change. write, read, a failing free, a failing resize
and an allocate whose growth was refused leave it n. -/
theorem C14_free_count (m : MemoryManager) (hl : Live m) :
    ∃ n, getNumFreeBlocks m = some n ∧
      (∀ i out m1, free m i = some ⟨true, out, m1⟩ → getNumFreeBlocks m1 = some (n + 1)) ∧
      (1 ≤ getSize m → ∀ v rawBlocks, ∃ r a, allocate m v rawBlocks = some r ∧
        getNumFreeBlocks r.state = some a ∧
        a + 1 = n + (getSize r.state - getSize m) ∧ getSize m ≤ getSize r.state) ∧
      (∀ i v r, write m i v = some r → getNumFreeBlocks r.state = some n) ∧
      (∀ i value0 r, read m i value0 = some r → getNumFreeBlocks r.state = some n) ∧
      (∀ i r, free m i = some r → r.ret = false → getNumFreeBlocks r.state = some n) ∧
      (∀ newSize rawBlocks r, requestResize m newSize rawBlocks = some r → r.ret = false →
        getNumFreeBlocks r.state = some n) ∧
      (∀ v rawBlocks r, allocate m v rawBlocks = some r → r.out ≠ [] →
        getNumFreeBlocks r.state = some n) := by
  obtain ⟨hr, hfit⟩ := live_reachable m hl
  obtain ⟨n, hn, hfree, halloc, hwrite, hread, hffree, hfresize, hfalloc⟩ := free_count m hr
  refine ⟨n, hn, hfree, ?_, hwrite, hread, hffree, hfresize, hfalloc⟩
  intro h1 v rawBlocks
  obtain ⟨r, a, hrun, ha, hsum⟩ :=
    halloc h1 (Or.inr (fits_double m.size hfit)) v rawBlocks
  exact ⟨r, a, hrun, ha, hsum, allocate_size_le m v rawBlocks r hrun⟩

theorem C14_free_count_witness :
    ∃ n, getNumFreeBlocks ⟨[42, 0, 0], 3, [true, false, false], 1⟩ = some n ∧
      (∀ i out m1, free ⟨[42, 0, 0], 3, [true, false, false], 1⟩ i = some ⟨true, out, m1⟩ →
        getNumFreeBlocks m1 = some (n + 1)) ∧
      (∃ r a, allocate ⟨[42, 0, 0], 3, [true, false, false], 1⟩ 73 (fun _ => 0) = some r ∧
        getNumFreeBlocks r.state = some a ∧
        a + 1 = n + (getSize r.state - getSize ⟨[42, 0, 0], 3, [true, false, false], 1⟩) ∧
        getSize ⟨[42, 0, 0], 3, [true, false, false], 1⟩ ≤ getSize r.state) :=
  (C14_free_count ⟨[42, 0, 0], 3, [true, false, false], 1⟩
    (Live.allocateStep (construct 3 (fun _ => 0) (fun _ => false)) 42 (fun _ => 0)
      ⟨0, [], ⟨[42, 0, 0], 3, [true, false, false], 1⟩⟩
      (Live.init 3 (fun _ => 0) (by decide)) (by decide) (by decide))).imp
    fun _ h => ⟨h.1, h.2.1, h.2.2.1 (by decide) 73 (fun _ => 0)⟩

/-! ## Sequential fill -/

theorem doubling_mono (c a b : Nat) (h : a ≤ b) : c * 2 ^ a ≤ c * 2 ^ b :=
  Nat.mul_le_mul_left c (Nat.pow_le_pow_right (by decide) h)

theorem doubling_lt (c a b : Nat) (h : c * 2 ^ a < c * 2 ^ b) : a < b := by
  by_contra hc
  have := doubling_mono c b a (by omega)
  omega

theorem leastCapacity_keep (c j s : Nat) (h : LeastCapacity c j s) :
    LeastCapacity c (j + 1) s := by
  obtain ⟨k, hs, hk⟩ := h
  refine ⟨k, hs, ?_⟩
  rcases hk with h0 | hlt
  · exact Or.inl h0
  · exact Or.inr (by omega)

theorem leastCapacity_double (c s : Nat) (h : LeastCapacity c s s) :
    LeastCapacity c (s + 1) (s * 2) := by
  obtain ⟨k, hs, _⟩ := h
  refine ⟨k + 1, ?_, Or.inr ?_⟩
  · rw [Nat.pow_succ, ← Nat.mul_assoc, ← hs]
  · rw [Nat.add_sub_cancel, ← hs]
    omega

theorem leastCapacity_least (c n s : Nat) (h : LeastCapacity c n s) (hn : n ≤ s) :
    ∃ k, s = c * 2 ^ k ∧ n ≤ c * 2 ^ k ∧ ∀ k2, n ≤ c * 2 ^ k2 → k ≤ k2 := by
  obtain ⟨k, hs, hk⟩ := h
  refine ⟨k, hs, by omega, ?_⟩
  intro k2 hk2
  rcases hk with h0 | hlt
  · omega
  · have := doubling_lt c (k - 1) k2 (by omega)
    omega

theorem filled_allocate (m : MemoryManager) (j : Nat) (v : Int) (rawBlocks : Nat → Int)
    (hF : FilledTo j m) (hg : j < m.size ∨ m.size < m.size * 2 % SIZE_T_MOD) :
    ∃ r, allocate m v rawBlocks = some r ∧ r.ret = j ∧ FilledTo (j + 1) r.state ∧
      ((j < m.size ∧ r.state.size = m.size) ∨
        (j = m.size ∧ r.state.size = m.size * 2 % SIZE_T_MOD ∧ m.size < r.state.size)) := by
  have hI := hF.inv
  have hcur := hF.cursor
  have hu := hI.wf.2
  obtain ⟨nb, nfb, newSize, hrun, hcase, _, _, hcn, hlt, _⟩ :=
    allocate_spec m v rawBlocks hI (by rw [hcur]; exact hg)
  have hI2 := allocate_inv m v rawBlocks _ hI hrun
  have hsz : m.size ≤ newSize := by
    rcases hcase with ⟨_, h⟩ | ⟨_, _, h⟩ <;> omega
  have hrest : ∀ i, j + 1 ≤ i → i < newSize →
      ((m.isUsed ++ List.replicate (newSize - m.size) false).set m.nextFreeBlock true)[i]?
        = some false := by
    intro i h1 h2
    rw [List.getElem?_set_ne (by omega)]
    by_cases hi : i < m.size
    · rw [List.getElem?_append_left (by omega)]
      exact hF.rest_free i (by omega) hi
    · rw [List.getElem?_append_right (by omega), List.getElem?_replicate, if_pos (by omega)]
  have hle2 : nfb ≤ newSize := hI2.cursor_le
  have hnfb : nfb = j + 1 := by
    by_contra hne
    have hused := hI2.below_used (j + 1) (show j + 1 < nfb by omega)
    have hfree := hrest (j + 1) (le_refl _) (by omega)
    have hused2 : ((m.isUsed ++ List.replicate (newSize - m.size) false).set
        m.nextFreeBlock true)[j + 1]? = some true := hused
    rw [hfree] at hused2
    exact absurd hused2 (by simp)
  refine ⟨_, hrun, hcur, ⟨hI2, hnfb, hrest⟩, ?_⟩
  rw [hcur] at hcase
  exact hcase

theorem construct_filled (c : Nat) (rawBlocks : Nat → Int) (hc : c < SIZE_T_MOD) :
    FilledTo 0 (construct c rawBlocks (fun _ => false)) := by
  refine ⟨construct_inv c rawBlocks hc, rfl, ?_⟩
  intro i _ hi
  have hi2 : i < c := hi
  simp [construct, List.getElem?_replicate, hi2]

theorem allocateAll_cons_some (rawBlocks : Nat → Int) (v : Int) (rest : List Int)
    (m m2 : MemoryManager) (indices : List Nat)
    (h : allocateAll rawBlocks (v :: rest) m = some (indices, m2)) :
    ∃ r indices2, allocate m v rawBlocks = some r ∧
      allocateAll rawBlocks rest r.state = some (indices2, m2) ∧
      indices = r.ret :: indices2 := by
  simp only [allocateAll] at h
  cases hrun : allocate m v rawBlocks with
  | none =>
    rw [hrun] at h
    exact absurd h (by simp)
  | some r =>
    rw [hrun] at h
    simp only at h
    cases hrest : allocateAll rawBlocks rest r.state with
    | none =>
      rw [hrest] at h
      exact absurd h (by simp)
    | some p =>
      obtain ⟨indices2, m3⟩ := p
      rw [hrest] at h
      simp only [Option.some.injEq, Prod.mk.injEq] at h
      obtain ⟨h1, h2⟩ := h
      subst h1 h2
      exact ⟨r, indices2, rfl, hrest, rfl⟩

theorem allocateAll_size_le (rawBlocks : Nat → Int) :
    ∀ (values : List Int) (m m2 : MemoryManager) (indices : List Nat),
      allocateAll rawBlocks values m = some (indices, m2) → m.size ≤ m2.size := by
  intro values
  induction values with
  | nil =>
    intro m m2 indices h
    simp only [allocateAll, Option.some.injEq, Prod.mk.injEq] at h
    rw [h.2]
  | cons v rest ih =>
    intro m m2 indices h
    obtain ⟨r, indices2, hrun, hrest, _⟩ := allocateAll_cons_some rawBlocks v rest m m2 indices h
    exact le_trans (allocate_size_le m v rawBlocks r hrun) (ih r.state m2 indices2 hrest)

theorem allocateAll_total (rawBlocks : Nat → Int) :
    ∀ (values : List Int) (m : MemoryManager), Inv m →
      ∃ indices m2, allocateAll rawBlocks values m = some (indices, m2) := by
  intro values
  induction values with
  | nil =>
    intro m _
    exact ⟨[], m, rfl⟩
  | cons v rest ih =>
    intro m hI
    obtain ⟨r, hrun⟩ := allocate_total m v rawBlocks hI
    obtain ⟨indices2, m2, hrest⟩ := ih r.state (allocate_inv m v rawBlocks r hI hrun)
    exact ⟨r.ret :: indices2, m2, by simp only [allocateAll, hrun, hrest]⟩

/-- A run of allocate calls on an object filled up to j, ending in an object whose arrays
new can deliver, returns j, j + 1, ... and ends filled, with the least capacity. -/
theorem allocateAll_filled (c : Nat) (rawBlocks : Nat → Int) (hc : 1 ≤ c) :
    ∀ (values : List Int) (j : Nat) (m m2 : MemoryManager) (indices : List Nat),
      FilledTo j m → LeastCapacity c j m.size →
      allocateAll rawBlocks values m = some (indices, m2) → newIntFits m2.size →
      indices = List.range' j values.length ∧ FilledTo (j + values.length) m2 ∧
        LeastCapacity c (j + values.length) m2.size := by
  intro values
  induction values with
  | nil =>
    intro j m m2 indices hF hL h _
    simp only [allocateAll, Option.some.injEq, Prod.mk.injEq] at h
    obtain ⟨h1, h2⟩ := h
    subst h1 h2
    exact ⟨rfl, hF, hL⟩
  | cons v rest ih =>
    intro j m m2 indices hF hL h hfit
    obtain ⟨r, indices2, hrun, hrest, hidx⟩ :=
      allocateAll_cons_some rawBlocks v rest m m2 indices h
    have hle1 := allocate_size_le m v rawBlocks r hrun
    have hle2 := allocateAll_size_le rawBlocks rest r.state m2 indices2 hrest
    have hdouble : m.size * 2 < SIZE_T_MOD := by
      have := fits_double m2.size hfit
      omega
    have hpos : 1 ≤ m.size := by
      obtain ⟨k, hs, _⟩ := hL
      rw [hs]
      exact Nat.mul_pos hc (Nat.two_pow_pos k)
    have hg : j < m.size ∨ m.size < m.size * 2 % SIZE_T_MOD :=
      Or.inr (double_gt m.size hpos hdouble)
    obtain ⟨r2, hrun2, hret, hF2, hcase⟩ := filled_allocate m j v rawBlocks hF hg
    have hr : r2 = r := Option.some.inj (hrun2.symm.trans hrun)
    subst hr
    have hL2 : LeastCapacity c (j + 1) r2.state.size := by
      rcases hcase with ⟨_, hs⟩ | ⟨hjs, hs, _⟩
      · rw [hs]
        exact leastCapacity_keep c j m.size hL
      · rw [hs, Nat.mod_eq_of_lt hdouble, hjs]
        exact leastCapacity_double c m.size (hjs ▸ hL)
    obtain ⟨hidx2, hF3, hL3⟩ := ih (j + 1) r2.state m2 indices2 hF2 hL2 hrest hfit
    have harith : j + 1 + rest.length = j + (rest.length + 1) := by omega
    rw [harith] at hF3 hL3
    refine ⟨?_, hF3, hL3⟩
    rw [hidx, hidx2, hret]
    exact (List.range'_succ j rest.length 1).symm

/-- C13 (sequential fill and auto-doubling): for every initial capacity c at least 1 and
every list of n values, the n successive calls of allocate on the fresh object with all
flags false return; when the object they leave is one of an execution, its arrays
delivered by new, the indices returned are 0, 1, ..., n - 1 in that order and the capacity
is the smallest c * 2 ^ k that is at least n. -/
theorem C13_sequential_fill (c : Nat) (values : List Int) (rawBlocks0 rawBlocks : Nat → Int)
    (hc : 1 ≤ c) (hsz : c < SIZE_T_MOD) :
    ∃ indices m2, allocateAll rawBlocks values (construct c rawBlocks0 (fun _ => false)) =
        some (indices, m2) ∧
      (newIntFits (getSize m2) →
        indices = List.range values.length ∧
        ∃ k, getSize m2 = c * 2 ^ k ∧ values.length ≤ c * 2 ^ k ∧
          ∀ k2, values.length ≤ c * 2 ^ k2 → k ≤ k2) := by
  have hF0 := construct_filled c rawBlocks0 hsz
  obtain ⟨indices, m2, hrun⟩ := allocateAll_total rawBlocks values _ hF0.inv
  refine ⟨indices, m2, hrun, ?_⟩
  intro hfit
  obtain ⟨hidx, hF, hL⟩ :=
    allocateAll_filled c rawBlocks hc values 0 _ m2 indices hF0
      ⟨0, by simp [construct], Or.inl rfl⟩ hrun hfit
  rw [Nat.zero_add] at hF hL
  refine ⟨?_, ?_⟩
  · rw [hidx, List.range_eq_range']
  · have hle : values.length ≤ m2.size := by
      have := hF.inv.cursor_le
      rw [hF.cursor] at this
      exact this
    exact leastCapacity_least c values.length m2.size hL hle

theorem C13_sequential_fill_witness :
    allocateAll (fun _ => 0) [0, 1, 2, 3, 4] (construct 3 (fun _ => 0) (fun _ => false)) =
      some ([0, 1, 2, 3, 4],
        ⟨[0, 1, 2, 3, 4, 0], 6, [true, true, true, true, true, false], 5⟩) ∧
    (∃ indices m2,
      allocateAll (fun _ => 0) [0, 1, 2, 3, 4] (construct 3 (fun _ => 0) (fun _ => false)) =
        some (indices, m2) ∧
      (newIntFits (getSize m2) →
        indices = List.range [(0 : Int), 1, 2, 3, 4].length ∧
        ∃ k, getSize m2 = 3 * 2 ^ k ∧ [(0 : Int), 1, 2, 3, 4].length ≤ 3 * 2 ^ k ∧
          ∀ k2, [(0 : Int), 1, 2, 3, 4].length ≤ 3 * 2 ^ k2 → k ≤ k2)) :=
  ⟨by decide, C13_sequential_fill 3 [0, 1, 2, 3, 4] (fun _ => 0) (fun _ => 0)
    (by decide) (by decide)⟩

/-! ## The structure of the object, whatever the fresh storage holds -/

theorem allocateClaim_shape (m : MemoryManager) (value : Int) (out : List String)
    (r : Outcome Nat) (hwf : WF m) (hc : m.nextFreeBlock < m.size)
    (h : allocateClaim m value out = some r) :
    WF r.state ∧ r.state.nextFreeBlock ≤ r.state.size := by
  obtain ⟨nfb, hrun, _, hle, _, _⟩ := allocateClaim_ok m value out hwf hc
  rw [hrun] at h
  rw [← Option.some.inj h]
  exact ⟨⟨by simpa using hwf.1, by simpa using hwf.2⟩, hle⟩

theorem reachableRaw_shape (m : MemoryManager) (h : ReachableRaw m) :
    WF m ∧ m.nextFreeBlock ≤ m.size := by
  induction h with
  | init numBlocks rawBlocks rawUsed =>
    exact ⟨⟨by simp [construct], by simp [construct]⟩, Nat.zero_le _⟩
  | allocateStep m value rawBlocks r _ hrun ih =>
    obtain ⟨hwf, hcl⟩ := ih
    by_cases hc : m.nextFreeBlock < m.size
    · rw [allocate_noGrow m value rawBlocks hc] at hrun
      exact allocateClaim_shape m value [] r hwf hc hrun
    · by_cases hg : m.size * 2 % SIZE_T_MOD ≤ m.size
      · rw [allocate_growFail m value rawBlocks (by omega) hg] at hrun
        rw [← Option.some.inj hrun]
        exact ⟨hwf, hcl⟩
      · obtain ⟨nb, hlen, _, hrun2⟩ :=
          allocate_grow m value rawBlocks hwf (by omega) (by omega)
        rw [hrun2] at hrun
        have hu := hwf.2
        refine allocateClaim_shape _ value [] r ⟨hlen, ?_⟩ ?_ hrun
        · show (m.isUsed ++ List.replicate (m.size * 2 % SIZE_T_MOD - m.size) false).length
            = m.size * 2 % SIZE_T_MOD
          simp
          omega
        · show m.nextFreeBlock < m.size * 2 % SIZE_T_MOD
          omega
  | freeStep m index r _ hrun ih =>
    obtain ⟨hwf, hcl⟩ := ih
    rcases free_cases m index r hrun with ⟨_, hr⟩ | ⟨_, _, hr⟩ | ⟨hi, _, hr⟩
    · rw [hr]; exact ⟨hwf, hcl⟩
    · rw [hr]; exact ⟨hwf, hcl⟩
    · rw [hr]
      refine ⟨⟨hwf.1, by simpa using hwf.2⟩, ?_⟩
      show (if index < m.nextFreeBlock then index else m.nextFreeBlock) ≤ m.size
      split <;> omega
  | writeStep m index value r _ hrun ih =>
    obtain ⟨hwf, hcl⟩ := ih
    rcases write_cases m index value r hrun with ⟨_, hr⟩ | ⟨_, _, hr⟩ | ⟨_, _, _, hr⟩
    · rw [hr]; exact ⟨hwf, hcl⟩
    · rw [hr]; exact ⟨hwf, hcl⟩
    · rw [hr]
      exact ⟨⟨by simpa using hwf.1, hwf.2⟩, hcl⟩
  | readStep m index value r _ hrun ih =>
    rw [read_state m index value r hrun]
    exact ih
  | resizeStep m newSize rawBlocks r _ hrun ih =>
    obtain ⟨hwf, hcl⟩ := ih
    by_cases hle : newSize ≤ m.size
    · rw [requestResize, resize_fail m newSize rawBlocks hle] at hrun
      rw [← Option.some.inj hrun]
      exact ⟨hwf, hcl⟩
    · obtain ⟨nb, hres, hlen, _⟩ := resize_ok m newSize rawBlocks hwf (by omega)
      rw [requestResize, hres] at hrun
      rw [← Option.some.inj hrun]
      have hu := hwf.2
      refine ⟨⟨hlen, ?_⟩, ?_⟩
      · show (m.isUsed ++ List.replicate (newSize - m.size) false).length = newSize
        simp
        omega
      · show m.nextFreeBlock ≤ newSize
        omega

/-- C17 (structural invariant): in every state reached from the constructor, whatever the
fresh storage and its flags hold, by calls of allocate, free, write, read and resize of
whatever arguments and outcome, both arrays have as many elements as the capacity, and the
cursor is at most the capacity. -/
theorem C17_structural_invariant (m : MemoryManager) (hr : ReachableRaw m) :
    m.blocks.length = getSize m ∧ m.isUsed.length = getSize m ∧
      m.nextFreeBlock ≤ getSize m := by
  obtain ⟨hwf, hcl⟩ := reachableRaw_shape m hr
  exact ⟨hwf.1, hwf.2, hcl⟩

theorem C17_structural_invariant_witness :
    (MemoryManager.mk [9] 1 [true] 1).blocks.length = getSize ⟨[9], 1, [true], 1⟩ ∧
      (MemoryManager.mk [9] 1 [true] 1).isUsed.length = getSize ⟨[9], 1, [true], 1⟩ ∧
      (MemoryManager.mk [9] 1 [true] 1).nextFreeBlock ≤ getSize ⟨[9], 1, [true], 1⟩ :=
  C17_structural_invariant ⟨[9], 1, [true], 1⟩
    (ReachableRaw.allocateStep (construct 1 (fun _ => 5) (fun _ => true)) 9 (fun _ => 0)
      ⟨0, [], ⟨[9], 1, [true], 1⟩⟩
      (ReachableRaw.init 1 (fun _ => 5) (fun _ => true)) (by decide))

end MemManager
